import Mathlib

/-!
Verification of the DeliveryRobot program (src/DeliveryRobot.js).

The JavaScript source is shallowly embedded: the road graph becomes an
association list from location names to neighbor lists, `WorldState.move`
becomes a pure function on a state record, the two breadth-first searches
(`findRoute`, `calculateDistance`) become fuel-indexed loops whose work
list / queue is threaded explicitly, and the `PGroup` class becomes a
record holding its backing array.
-/

namespace DeliveryRobot

/-- A graph is an association list from a location name to the list of
directly reachable location names, mirroring the plain JS object built by
`buildGraph` (insertion order of keys and of neighbor entries preserved). -/
abbrev Graph := List (String × List String)

/-- First-match lookup of a key, mirroring JS property access `graph[k]`
(returns `none` when the property is absent). -/
def lookupG : Graph → String → Option (List String)
  | [], _ => none
  | (k, vs) :: g, key => if k = key then some vs else lookupG g key

/-- `neighbors g k` is the neighbor list `graph[k]`, defaulting to `[]`
for an absent key. -/
def neighbors (g : Graph) (key : String) : List String :=
  (lookupG g key).getD []

/-- `addEdge` from `buildGraph`: if the key is absent, append a new entry
`(f, [t])` (JS creates the property, in insertion order at the end);
otherwise push `t` onto the existing neighbor list. -/
def addEdge : Graph → String → String → Graph
  | [], f, t => [(f, [t])]
  | (k, vs) :: g, f, t =>
    if k = f then (k, vs ++ [t]) :: g else (k, vs) :: addEdge g f t

/-- Helper for `splitDash`: splits a character list at every `'-'`,
accumulating the current fragment in reverse. -/
def splitDashAux : List Char → List Char → List String
  | [], acc => [String.mk acc.reverse]
  | c :: cs, acc =>
    if c = '-' then String.mk acc.reverse :: splitDashAux cs []
    else splitDashAux cs (c :: acc)

/-- `r.split("-")`: split a string at every dash.  For the single-character
separator `"-"` this character-by-character definition coincides with the
JS `String.prototype.split`. -/
def splitDash (r : String) : List String := splitDashAux r.toList []

/-- The destructuring `let [from, to] = r.split("-")`: the first two
components of the split (a missing second component is modelled as `""`;
well-formed descriptors always have exactly two). -/
def parseEdge (r : String) : String × String :=
  match splitDash r with
  | f :: t :: _ => (f, t)
  | f :: [] => (f, "")
  | [] => ("", "")

/-- `buildGraph`: for each edge descriptor, register the adjacency in both
directions (`addEdge(from, to); addEdge(to, from)`). -/
def buildGraph (edges : List String) : Graph :=
  edges.foldl
    (fun g r =>
      let p := parseEdge r
      addEdge (addEdge g p.1 p.2) p.2 p.1)
    []

/-- The 14 road descriptors of the virtual world (`roads` in the source). -/
def roads : List String :=
  ["Alice\x27s House-Bob\x27s House",
   "Alice\x27s House-Cabin",
   "Alice\x27s House-Post Office",
   "Bob\x27s House-Town Hall",
   "Daria\x27s House-Ernie\x27s House",
   "Daria\x27s House-Town Hall",
   "Ernie\x27s House-Grete\x27s House",
   "Grete\x27s House-Farm",
   "Grete\x27s House-Shop",
   "Marketplace-Post Office",
   "Marketplace-Town Hall",
   "Marketplace-Farm",
   "Marketplace-Shop",
   "Shop-Town Hall"]

/-- `roadGraph = buildGraph(roads)`. -/
def roadGraph : Graph := buildGraph roads

/-- The keys of a graph (`Object.keys(graph)`, in insertion order). -/
def keysOf (g : Graph) : List String := g.map Prod.fst

/-- All location names occurring in some neighbor list of `g`. -/
def nodesOf (g : Graph) : List String := (g.map Prod.snd).flatten

/-- A parcel `{place, address}`. -/
structure Parcel where
  place : String
  address : String
deriving DecidableEq

/-- `WorldState`: the robot's location and the undelivered parcels. -/
structure WorldState where
  place : String
  parcels : List Parcel
deriving DecidableEq

/-- `WorldState.prototype.move`: an illegal destination returns the state
unchanged; a legal one relocates every parcel at the robot's place to the
destination and then drops every parcel whose place equals its address. -/
def WorldState.move (s : WorldState) (destination : String) : WorldState :=
  if destination ∈ neighbors roadGraph s.place then
    { place := destination
      parcels :=
        (s.parcels.map fun p =>
            if p.place = s.place then { place := destination, address := p.address } else p).filter
          fun p => p.place != p.address }
  else s

/-- The persistent group class `PGroup`, backed by the array `this.group`. -/
structure PGroup (α : Type) where
  group : List α
deriving DecidableEq

/-- `PGroup.prototype.add`: if `x` is absent (`indexOf(x) === -1`) return a
new group whose array is the old contents followed by `x`; otherwise
return the receiver itself. -/
def PGroup.add {α : Type} [DecidableEq α] (g : PGroup α) (x : α) : PGroup α :=
  if x ∈ g.group then g else ⟨g.group ++ [x]⟩

/-- `PGroup.prototype.delete`: if `x` is present, return a new group whose
array is a copy with the first occurrence spliced out; otherwise return
the receiver itself. -/
def PGroup.delete {α : Type} [DecidableEq α] (g : PGroup α) (x : α) : PGroup α :=
  if x ∈ g.group then ⟨g.group.erase x⟩ else g

/-- `PGroup.prototype.has`: `this.group.includes(x)`. -/
def PGroup.has {α : Type} [DecidableEq α] (g : PGroup α) (x : α) : Bool :=
  g.group.contains x

/-- `PGroup.empty`: a fresh empty group. -/
def PGroup.empty {α : Type} : PGroup α := ⟨[]⟩

/-- A call `g.add(x)` as observed from the caller: the returned group,
paired with the state of the receiver after the call.  The method body
only reads `this.group` (via `indexOf`) and writes into the freshly
constructed group, so the receiver's state after the call is `g` itself. -/
def PGroup.addCall {α : Type} [DecidableEq α] (g : PGroup α) (x : α) :
    PGroup α × PGroup α :=
  (g.add x, g)

/-- A call `g.delete(x)` as observed from the caller: the returned group,
paired with the state of the receiver after the call (the body reads
`this.group` and mutates only the fresh copy). -/
def PGroup.deleteCall {α : Type} [DecidableEq α] (g : PGroup α) (x : α) :
    PGroup α × PGroup α :=
  (g.delete x, g)

/-- `PGroup.from`: loops over the array calling `newGroup.add(arr[elem])`
but discards each returned group, so the accumulated receiver is the state
of `newGroup` after each call (its second component). -/
def PGroup.fromArr {α : Type} [DecidableEq α] (arr : List α) : PGroup α :=
  arr.foldl (fun g x => (g.addCall x).2) PGroup.empty

/-! ### Basic graph lemmas -/

/-- Membership in a neighbor list after `addEdge`: the target `t` is added
to `f`'s list and nothing else changes. -/
lemma mem_neighbors_addEdge (g : Graph) (f t k x : String) :
    x ∈ neighbors (addEdge g f t) k ↔ x ∈ neighbors g k ∨ (k = f ∧ x = t) := by
  induction g with
  | nil =>
    by_cases h : f = k <;> simp [addEdge, neighbors, lookupG, h] <;> aesop
  | cons hd tl ih =>
    obtain ⟨k', vs⟩ := hd
    by_cases h1 : k' = f
    · subst h1
      by_cases h2 : k' = k
      · subst h2
        simp [addEdge, neighbors, lookupG]
      · simp [addEdge, neighbors, lookupG, h2]
        aesop
    · by_cases h2 : k' = k
      · subst h2
        simp [addEdge, neighbors, lookupG, h1]
      · simpa [addEdge, neighbors, lookupG, h1, h2] using ih

/-- Symmetry of the adjacency mapping. -/
def Symm (g : Graph) : Prop := ∀ a b, a ∈ neighbors g b ↔ b ∈ neighbors g a

/-- Registering one road in both directions preserves symmetry. -/
lemma symm_addEdge_pair (g : Graph) (f t : String) (h : Symm g) :
    Symm (addEdge (addEdge g f t) t f) := by
  intro a b
  simp only [mem_neighbors_addEdge]
  rw [h a b]
  tauto

/-- Every graph `buildGraph` produces has a symmetric adjacency mapping. -/
lemma buildGraph_symm (edges : List String) : Symm (buildGraph edges) := by
  suffices H : ∀ g, Symm g →
      Symm (edges.foldl
        (fun g r => let p := parseEdge r; addEdge (addEdge g p.1 p.2) p.2 p.1) g) by
    exact H [] (by intro a b; simp [neighbors, lookupG])
  induction edges with
  | nil => intro g hg; exact hg
  | cons r rs ih =>
    intro g hg
    exact ih _ (symm_addEdge_pair g (parseEdge r).1 (parseEdge r).2 hg)

/-! ### Claim C5 -/

/-- C5: For every graph built by `buildGraph` from well-formed `"A-B"` edge
descriptors, `A` is in the neighbor list of `B` iff `B` is in the neighbor
list of `A`: the adjacency mapping is symmetric by construction. -/
theorem claim_C5 (edges : List String)
    (hwf : ∀ r ∈ edges, (splitDash r).length = 2) (A B : String) :
    A ∈ neighbors (buildGraph edges) B ↔ B ∈ neighbors (buildGraph edges) A :=
  buildGraph_symm edges A B

theorem claim_C5_witness :
    (∀ r ∈ ["A-B", "B-C"], (splitDash r).length = 2) ∧
    ("A" ∈ neighbors (buildGraph ["A-B", "B-C"]) "B" ↔
      "B" ∈ neighbors (buildGraph ["A-B", "B-C"]) "A") :=
  ⟨by decide, claim_C5 ["A-B", "B-C"] (by decide) "A" "B"⟩

/-! ### Claims C2 and C3: the state transition `move` -/

/-- The parcel list a legal `move` produces, rewritten from the source's
map-then-filter into a single per-parcel case split (valid when no parcel
already sits at its own address). -/
lemma move_parcels_eq (l : List Parcel) (pl d : String)
    (hwf : ∀ p ∈ l, p.place ≠ p.address) :
    ((l.map fun p =>
        if p.place = pl then { place := d, address := p.address } else p).filter
      fun p => p.place != p.address) =
    l.filterMap (fun p =>
      if p.place = pl then
        (if d = p.address then none
         else some { place := d, address := p.address })
      else some p) := by
  induction l with
  | nil => rfl
  | cons p l ih =>
    have hp := hwf p (List.mem_cons_self p l)
    by_cases h1 : p.place = pl
    · by_cases h2 : d = p.address
      · subst h2
        have ih' := ih (fun q hq => hwf q (List.mem_cons_of_mem p hq))
        simp [h1, List.filter_cons, ih']
      · have ih' := ih (fun q hq => hwf q (List.mem_cons_of_mem p hq))
        simp [h1, h2, List.filter_cons, ih', bne_iff_ne]
    · have ih' := ih (fun q hq => hwf q (List.mem_cons_of_mem p hq))
      simp [h1, List.filter_cons, ih', bne_iff_ne, hp]

/-- C2: a `move` to a neighboring destination relocates to `destination`
every parcel at the robot's place, removes every parcel whose (updated)
place equals its address, and passes every other parcel through unchanged. -/
theorem claim_C2 (s : WorldState) (destination : String)
    (hkey : (lookupG roadGraph s.place).isSome)
    (hdest : destination ∈ neighbors roadGraph s.place)
    (hwf : ∀ p ∈ s.parcels, p.place ≠ p.address) :
    (s.move destination).place = destination ∧
    (s.move destination).parcels =
      s.parcels.filterMap (fun p =>
        if p.place = s.place then
          (if destination = p.address then none
           else some { place := destination, address := p.address })
        else some p) := by
  unfold WorldState.move
  rw [if_pos hdest]
  exact ⟨rfl, move_parcels_eq s.parcels s.place destination hwf⟩

theorem claim_C2_witness :
    ("Alice\x27s House" ∈
        neighbors roadGraph
          (WorldState.mk "Post Office"
            [{ place := "Post Office", address := "Alice\x27s House" },
             { place := "Marketplace", address := "Shop" }]).place) ∧
    ((WorldState.mk "Post Office"
        [{ place := "Post Office", address := "Alice\x27s House" },
         { place := "Marketplace", address := "Shop" }]).move
      "Alice\x27s House").place = "Alice\x27s House" :=
  ⟨by decide,
    (claim_C2
      (WorldState.mk "Post Office"
        [{ place := "Post Office", address := "Alice\x27s House" },
         { place := "Marketplace", address := "Shop" }])
      "Alice\x27s House" (by decide) (by decide) (by decide)).1⟩

/-- C3: a `move` to a non-neighbor is a silent no-op returning the state
itself, not an error. -/
theorem claim_C3 (s : WorldState) (destination : String)
    (hkey : (lookupG roadGraph s.place).isSome)
    (hdest : destination ∉ neighbors roadGraph s.place) :
    s.move destination = s := by
  unfold WorldState.move
  rw [if_neg hdest]

theorem claim_C3_witness :
    ((lookupG roadGraph
        (WorldState.mk "Post Office"
          [{ place := "Cabin", address := "Farm" }]).place).isSome) ∧
    (WorldState.mk "Post Office" [{ place := "Cabin", address := "Farm" }]).move "Shop" =
      WorldState.mk "Post Office" [{ place := "Cabin", address := "Farm" }] :=
  ⟨by decide,
    claim_C3 (WorldState.mk "Post Office" [{ place := "Cabin", address := "Farm" }])
      "Shop" (by decide) (by decide)⟩

/-! ### Claims C9 and C10: the persistent group -/

/-- C9: the observable contract of `PGroup`: adding makes `has` true,
the empty group contains nothing, deleting after adding removes the
element, and the receiver of an `add` or `delete` call is left with its
contents unchanged (prior instances stay valid). -/
theorem claim_C9 {α : Type} [DecidableEq α] (g : PGroup α) (x y : α) :
    (PGroup.empty.add x).has x = true ∧
    (PGroup.empty : PGroup α).has x = false ∧
    ((PGroup.empty.add x).delete x).has x = false ∧
    (g.addCall x).2.has y = g.has y ∧
    (g.deleteCall x).2.has y = g.has y := by
  refine ⟨?_, ?_, ?_, rfl, rfl⟩
  · simp [PGroup.add, PGroup.empty, PGroup.has]
  · simp [PGroup.empty, PGroup.has]
  · simp [PGroup.add, PGroup.empty, PGroup.has, PGroup.delete]

theorem claim_C9_witness :
    ((PGroup.empty.add "x").has "x" = true ∧
      (PGroup.empty : PGroup String).has "x" = false ∧
      ((PGroup.empty.add "x").delete "x").has "x" = false ∧
      ((PGroup.mk ["a"]).addCall "x").2.has "a" = (PGroup.mk ["a"]).has "a" ∧
      ((PGroup.mk ["a"]).deleteCall "x").2.has "a" = (PGroup.mk ["a"]).has "a") :=
  claim_C9 (PGroup.mk ["a"]) "x" "a"

/-- C10: `PGroup.from` discards the groups returned by `add` inside its
loop, so the group it returns is the originally constructed empty group:
it contains no elements at all. -/
theorem claim_C10 {α : Type} [DecidableEq α] (arr : List α) (x : α) :
    (PGroup.fromArr arr).has x = false := by
  have h : PGroup.fromArr arr = (PGroup.empty : PGroup α) := by
    unfold PGroup.fromArr
    induction arr with
    | nil => rfl
    | cons a l ih => simpa [PGroup.addCall] using ih
  rw [h]
  simp [PGroup.empty, PGroup.has]

theorem claim_C10_witness :
    (PGroup.fromArr ["a", "b", "c"]).has "a" = false :=
  claim_C10 ["a", "b", "c"] "a"

/-! ### The simulator and the fixed-route strategy (claim C7) -/

/-- The action a robot returns: a direction and its new memory. -/
structure Action (μ : Type) where
  direction : String
  memory : μ

/-- `runRobot`: repeatedly ask the robot for an action and apply it via
`move` until no parcels remain, counting turns.  The JS loop has no bound,
so the embedding takes explicit fuel and returns `none` when the fuel runs
out before the parcels do; `some t` means the loop finished in `t` turns. -/
def runRobot {μ : Type} (robot : WorldState → μ → Action μ) :
    Nat → WorldState → μ → Option Nat
  | 0, _, _ => none
  | fuel+1, s, memory =>
    if s.parcels.isEmpty then some 0
    else
      let action := robot s memory
      (runRobot robot fuel (s.move action.direction) action.memory).map (· + 1)

/-- The 13-step `mailRoute` tour (starting from the post office). -/
def mailRoute : List String :=
  ["Alice\x27s House", "Cabin", "Alice\x27s House", "Bob\x27s House",
   "Town Hall", "Daria\x27s House", "Ernie\x27s House", "Grete\x27s House",
   "Shop", "Grete\x27s House", "Farm", "Marketplace", "Post Office"]

/-- `routeRobot`: when its memory is empty reload the full tour, then emit
the first remembered step and keep the rest. -/
def routeRobot (_state : WorldState) (memory : List String) : Action (List String) :=
  let m := if memory.isEmpty then mailRoute else memory
  { direction := m.headD "", memory := m.tail }

/-- Apply a list of directions to a state, one `move` after another. -/
def applyMoves (s : WorldState) (ms : List String) : WorldState :=
  ms.foldl WorldState.move s

/-- The first `k` directions `routeRobot` emits when started with the
given memory. -/
def routeMoves : List String → Nat → List String
  | _, 0 => []
  | memory, k+1 =>
    let m := if memory.isEmpty then mailRoute else memory
    m.headD "" :: routeMoves m.tail k

/-- The effect of one `move` on a single parcel, given the robot's place
and the destination of a legal move: relocate it if colocated, then drop
it if it has arrived at its address. -/
def moveParcel (pl d : String) (p : Parcel) : Option Parcel :=
  let p2 := if p.place = pl then { place := d, address := p.address } else p
  if p2.place != p2.address then some p2 else none

/-- Track one parcel through a sequence of directions: each legal move
relocates/drops it via `moveParcel`, an illegal move leaves the robot (and
hence the parcel) in place. -/
def simParcel : String → List String → Parcel → Option Parcel
  | _, [], p => some p
  | pl, d :: ms, p =>
    if d ∈ neighbors roadGraph pl then
      (moveParcel pl d p).bind (simParcel d ms)
    else simParcel pl ms p

/-- Filtering a mapped list is a single `filterMap`. -/
lemma filter_map_eq_filterMap {α β : Type} (f : α → β) (q : β → Bool) (l : List α) :
    (l.map f).filter q = l.filterMap (fun a => if q (f a) then some (f a) else none) := by
  induction l with
  | nil => rfl
  | cons a l ih =>
    by_cases h : q (f a) <;> simp [List.filter_cons, h, ih]

/-- A legal `move` in per-parcel form. -/
lemma move_eq_legal (pl d : String) (ps : List Parcel)
    (h : d ∈ neighbors roadGraph pl) :
    (WorldState.mk pl ps).move d = WorldState.mk d (ps.filterMap (moveParcel pl d)) := by
  unfold WorldState.move
  rw [if_pos h]
  simp only [WorldState.mk.injEq, true_and]
  rw [filter_map_eq_filterMap]
  rfl

/-- An illegal `move` returns the state unchanged. -/
lemma move_eq_illegal (pl d : String) (ps : List Parcel)
    (h : d ∉ neighbors roadGraph pl) :
    (WorldState.mk pl ps).move d = WorldState.mk pl ps := by
  unfold WorldState.move
  rw [if_neg h]

/-- The parcels left after a sequence of moves are exactly the parcels
that survive their individual `simParcel` runs: parcels evolve
independently of one another. -/
lemma applyMoves_parcels :
    ∀ (ms : List String) (pl : String) (ps : List Parcel),
      (applyMoves (WorldState.mk pl ps) ms).parcels = ps.filterMap (simParcel pl ms) := by
  intro ms
  induction ms with
  | nil => intro pl ps; simp [applyMoves, simParcel]
  | cons d ms ih =>
    intro pl ps
    by_cases h : d ∈ neighbors roadGraph pl
    · have hstep : applyMoves (WorldState.mk pl ps) (d :: ms) =
          applyMoves (WorldState.mk d (ps.filterMap (moveParcel pl d))) ms := by
        simp [applyMoves, move_eq_legal pl d ps h]
      rw [hstep, ih d, List.filterMap_filterMap]
      apply List.filterMap_congr
      intro p _
      simp [simParcel, h]
    · have hstep : applyMoves (WorldState.mk pl ps) (d :: ms) =
          applyMoves (WorldState.mk pl ps) ms := by
        simp [applyMoves, move_eq_illegal pl d ps h]
      rw [hstep, ih pl]
      apply List.filterMap_congr
      intro p _
      simp [simParcel, h]

/-- Exhaustive check over the road graph: every parcel whose place and
address are distinct graph keys is delivered somewhere within two
traversals of the mail route started at the post office. -/
lemma parcels_delivered :
    ∀ pl ∈ keysOf roadGraph, ∀ ad ∈ keysOf roadGraph, pl ≠ ad →
      simParcel "Post Office" (mailRoute ++ mailRoute) (Parcel.mk pl ad) = none := by
  decide

/-- If following the route memory for `k` steps delivers every parcel,
`runRobot` with more than `k` fuel stops within `k` turns. -/
lemma runRobot_routeRobot_of_delivered :
    ∀ (k fuel : Nat) (s : WorldState) (memory : List String),
      (applyMoves s (routeMoves memory k)).parcels = [] → k < fuel →
      ∃ t ≤ k, runRobot routeRobot fuel s memory = some t := by
  intro k
  induction k with
  | zero =>
    intro fuel s memory hdone hfuel
    obtain ⟨f, rfl⟩ := Nat.exists_eq_succ_of_ne_zero (Nat.pos_iff_ne_zero.mp hfuel)
    refine ⟨0, le_refl 0, ?_⟩
    have hs : s.parcels = [] := by simpa [applyMoves, routeMoves] using hdone
    simp [runRobot, hs]
  | succ k ih =>
    intro fuel s memory hdone hfuel
    obtain ⟨f, rfl⟩ := Nat.exists_eq_succ_of_ne_zero
      (Nat.pos_iff_ne_zero.mp (Nat.lt_of_le_of_lt (Nat.zero_le _) hfuel))
    by_cases hs : s.parcels = []
    · exact ⟨0, Nat.zero_le _, by simp [runRobot, hs]⟩
    · have hstep : routeMoves memory (k+1) =
          (if memory.isEmpty then mailRoute else memory).headD "" ::
            routeMoves (if memory.isEmpty then mailRoute else memory).tail k := rfl
      rw [hstep] at hdone
      have happ : applyMoves s (((if memory.isEmpty then mailRoute else memory).headD "") ::
          routeMoves (if memory.isEmpty then mailRoute else memory).tail k) =
          applyMoves (s.move ((if memory.isEmpty then mailRoute else memory).headD ""))
            (routeMoves (if memory.isEmpty then mailRoute else memory).tail k) := rfl
      rw [happ] at hdone
      obtain ⟨t, ht, heq⟩ := ih f
        (s.move ((if memory.isEmpty then mailRoute else memory).headD ""))
        ((if memory.isEmpty then mailRoute else memory).tail) hdone
        (Nat.lt_of_succ_lt_succ hfuel)
      refine ⟨t + 1, Nat.succ_le_succ ht, ?_⟩
      have hne : s.parcels.isEmpty = false := by
        simp [List.isEmpty_iff, hs]
      simp only [List.isEmpty_iff, List.headD_eq_head?] at heq
      simp [runRobot, hne, routeRobot, heq]

/-- C7: from any initial state with the robot at the post office and every
parcel a (place ≠ address) pair of graph keys — as `WorldState.random`
produces — `runRobot` with `routeRobot` and empty memory terminates within
two traversals of the 13-step tour, i.e. in at most 26 turns. -/
theorem claim_C7 (parcels : List Parcel)
    (hvalid : ∀ p ∈ parcels, p.place ∈ keysOf roadGraph ∧
      p.address ∈ keysOf roadGraph ∧ p.place ≠ p.address)
    (fuel : Nat) (hfuel : 27 ≤ fuel) :
    ∃ t ≤ 26, runRobot routeRobot fuel (WorldState.mk "Post Office" parcels) [] = some t := by
  apply runRobot_routeRobot_of_delivered 26 fuel _ []
  · have hroutes : routeMoves [] 26 = mailRoute ++ mailRoute := by decide
    rw [hroutes, applyMoves_parcels]
    rw [List.filterMap_eq_nil_iff]
    intro p hp
    obtain ⟨h1, h2, h3⟩ := hvalid p hp
    simpa using parcels_delivered p.place h1 p.address h2 h3
  · exact Nat.lt_of_lt_of_le (by norm_num) hfuel

theorem claim_C7_witness :
    (∀ p ∈ [Parcel.mk "Alice\x27s House" "Cabin",
            Parcel.mk "Town Hall" "Post Office",
            Parcel.mk "Marketplace" "Farm",
            Parcel.mk "Shop" "Grete\x27s House",
            Parcel.mk "Ernie\x27s House" "Bob\x27s House"],
        p.place ∈ keysOf roadGraph ∧ p.address ∈ keysOf roadGraph ∧
          p.place ≠ p.address) ∧
    ∃ t ≤ 26,
      runRobot routeRobot 27
        (WorldState.mk "Post Office"
          [Parcel.mk "Alice\x27s House" "Cabin",
           Parcel.mk "Town Hall" "Post Office",
           Parcel.mk "Marketplace" "Farm",
           Parcel.mk "Shop" "Grete\x27s House",
           Parcel.mk "Ernie\x27s House" "Bob\x27s House"]) [] = some t :=
  ⟨by decide,
    claim_C7
      [Parcel.mk "Alice\x27s House" "Cabin",
       Parcel.mk "Town Hall" "Post Office",
       Parcel.mk "Marketplace" "Farm",
       Parcel.mk "Shop" "Grete\x27s House",
       Parcel.mk "Ernie\x27s House" "Bob\x27s House"]
      (by decide) 27 (le_refl 27)⟩

/-! ### Claim C8: the robot comparator -/

/-- The accumulation loop of `compareRobots`: for each task run robot 1 and
then robot 2 on the **same** task value (each with a fresh start memory),
adding the turn counts into the two totals.  A run that exhausts its fuel
makes the whole comparison `none`. -/
def compareGo {μ : Type} (fuel : Nat) (robot1 robot2 : WorldState → μ → Action μ)
    (mem0 : μ) : List WorldState → Nat → Nat → Option (Nat × Nat)
  | [], t1, t2 => some (t1, t2)
  | task :: rest, t1, t2 =>
    match runRobot robot1 fuel task mem0, runRobot robot2 fuel task mem0 with
    | some a, some b => compareGo fuel robot1 robot2 mem0 rest (t1 + a) (t2 + b)
    | _, _ => none

/-- `compareRobots`: run both robots over the same list of tasks (the JS
generates the tasks with `WorldState.random`; the embedding takes the
generated tasks as a parameter) and return each robot's average turns,
total divided by task count. -/
def compareRobots {μ : Type} (fuel : Nat) (robot1 robot2 : WorldState → μ → Action μ)
    (mem0 : μ) (tasks : List WorldState) : Option (ℚ × ℚ) :=
  (compareGo fuel robot1 robot2 mem0 tasks 0 0).map
    (fun p => ((p.1 : ℚ) / (tasks.length : ℚ), (p.2 : ℚ) / (tasks.length : ℚ)))

/-- Closed form of the comparator loop when every run terminates. -/
lemma compareGo_eq {μ : Type} (fuel : Nat) (r1 r2 : WorldState → μ → Action μ) (mem0 : μ) :
    ∀ (tasks : List WorldState) (t1 t2 : Nat),
      (∀ task ∈ tasks, (runRobot r1 fuel task mem0).isSome ∧
        (runRobot r2 fuel task mem0).isSome) →
      compareGo fuel r1 r2 mem0 tasks t1 t2 =
        some (t1 + (tasks.map (fun t => (runRobot r1 fuel t mem0).getD 0)).sum,
              t2 + (tasks.map (fun t => (runRobot r2 fuel t mem0).getD 0)).sum) := by
  intro tasks
  induction tasks with
  | nil => intro t1 t2 _; simp [compareGo]
  | cons task rest ih =>
    intro t1 t2 h
    obtain ⟨h1, h2⟩ := h task (List.mem_cons_self task rest)
    obtain ⟨a, ha⟩ := Option.isSome_iff_exists.mp h1
    obtain ⟨b, hb⟩ := Option.isSome_iff_exists.mp h2
    have ih' := ih (t1 + a) (t2 + b) (fun q hq => h q (List.mem_cons_of_mem task hq))
    simp only [compareGo, ha, hb, ih', List.map_cons, List.sum_cons]
    congr 1
    simp [ha, hb]
    omega

/-- C8: `compareRobots` presents both robots with the same initial state
for every task — `runRobot` is a pure function of the state value, which
is passed unchanged to both runs — and each returned average equals that
robot's accumulated total turns divided by the task count. -/
theorem claim_C8 {μ : Type} (fuel : Nat) (r1 r2 : WorldState → μ → Action μ) (mem0 : μ)
    (tasks : List WorldState)
    (h : ∀ task ∈ tasks, (runRobot r1 fuel task mem0).isSome ∧
      (runRobot r2 fuel task mem0).isSome) :
    compareRobots fuel r1 r2 mem0 tasks =
      some ((((tasks.map (fun t => (runRobot r1 fuel t mem0).getD 0)).sum : ℚ) /
              (tasks.length : ℚ)),
            (((tasks.map (fun t => (runRobot r2 fuel t mem0).getD 0)).sum : ℚ) /
              (tasks.length : ℚ))) := by
  unfold compareRobots
  rw [compareGo_eq fuel r1 r2 mem0 tasks 0 0 h]
  simp

theorem claim_C8_witness :
    (∀ task ∈ [WorldState.mk "Post Office" []],
        (runRobot routeRobot 1 task ([] : List String)).isSome ∧
        (runRobot routeRobot 1 task ([] : List String)).isSome) ∧
    ∃ q, compareRobots 1 routeRobot routeRobot ([] : List String)
        [WorldState.mk "Post Office" []] = some q :=
  ⟨by decide,
    ⟨_, claim_C8 1 routeRobot routeRobot ([] : List String)
        [WorldState.mk "Post Office" []] (by decide)⟩⟩

/-! ### The two breadth-first searches -/

/-- A work-list entry of `findRoute`: `{at, route}` (the field `at` is a
Lean keyword, so it is named `loc` here). -/
structure Entry where
  loc : String
  route : List String
deriving DecidableEq

/-- The inner `for (let place of graph[at])` loop of `findRoute`: walk the
neighbor list in order; on the first neighbor equal to `to` return
`route.concat(place)` (left); otherwise push unseen neighbors — checked by
scanning the whole work list accumulated so far — and return the grown
work list (right). -/
def scanNeighbors (dest : String) (route : List String) :
    List Entry → List String → (List String) ⊕ (List Entry)
  | work, [] => Sum.inr work
  | work, p :: rest =>
    if p = dest then Sum.inl (route ++ [p])
    else if work.any (fun w => w.loc == p) then scanNeighbors dest route work rest
    else scanNeighbors dest route (work ++ [⟨p, route ++ [p]⟩]) rest

/-- The outer loop of `findRoute`: process work entry `i`; the JS `for`
loop with `i < work.length` has no structural bound, so the embedding
takes explicit fuel and returns `none` both when the work list is
exhausted (the JS falls off the function, returning `undefined`) and when
the fuel runs out. -/
def findRouteGo (g : Graph) (dest : String) : Nat → List Entry → Nat → Option (List String)
  | 0, _, _ => none
  | fuel+1, work, i =>
    if h : i < work.length then
      match scanNeighbors dest (work.get ⟨i, h⟩).route work
          (neighbors g (work.get ⟨i, h⟩).loc) with
      | Sum.inl r => some r
      | Sum.inr work2 => findRouteGo g dest fuel work2 (i+1)
    else none

/-- Sufficient fuel for `findRoute`'s loop: the work list keeps at most
one entry per distinct location, and every location is the start or a
neighbor-list member. -/
def findRouteBound (g : Graph) (start : String) : Nat :=
  ((start :: nodesOf g).dedup).length + 1

/-- `findRoute(graph, from, to)`: breadth-first search from the work list
seeded with `{at: from, route: []}`. -/
def findRoute (g : Graph) (start dest : String) : Option (List String) :=
  findRouteGo g dest (findRouteBound g start) [⟨start, []⟩] 0

/-- The `while (queue.length > 0)` loop of `calculateDistance`, with the
visited set and the queue threaded explicitly and explicit fuel.  `none`
means the fuel ran out; `some ⊤` is the JS `Infinity` returned when the
queue empties; `some d` is a found distance. -/
def calcGo (g : Graph) (dest : String) :
    Nat → List String → List (String × Nat) → Option (WithTop Nat)
  | 0, _, _ => none
  | fuel+1, visited, queue =>
    match queue with
    | [] => some ⊤
    | (current, d) :: rest =>
      if current = dest then some (d : WithTop Nat)
      else
        let visited2 := if current ∈ visited then visited else visited ++ [current]
        calcGo g dest fuel visited2
          (rest ++ ((neighbors g current).filter
              (fun n => !(visited2.contains n))).map (fun n => (n, d + 1)))

/-- `calculateDistance(graph, from, to)`: BFS with an explicit visited set
starting from the queue `[[from, 0]]`. -/
def calculateDistance (g : Graph) (start dest : String) (fuel : Nat) :
    Option (WithTop Nat) :=
  calcGo g dest fuel [] [(start, 0)]

/-! ### Claim C4 (corrected): a search from a location to itself -/

/-- C4 is false for `findRoute`: on the graph built from `["A-B"]`,
`findRoute(g, "A", "A")` returns the two-step cycle `["B", "A"]`, not the
empty route (the BFS never compares the start entry itself against `to`,
only neighbors). -/
theorem claim_C4_counterexample :
    findRoute (buildGraph ["A-B"]) "A" "A" = some ["B", "A"] ∧
    findRoute (buildGraph ["A-B"]) "A" "A" ≠ some [] := by
  constructor
  · decide
  · decide

/-- An `inl` result of the neighbor scan is the accumulated route extended
by the destination — in particular it is nonempty. -/
lemma scanNeighbors_inl (dest : String) (route : List String) :
    ∀ (work : List Entry) (nbrs : List String) (r : List String),
      scanNeighbors dest route work nbrs = Sum.inl r → r = route ++ [dest] := by
  intro work nbrs
  induction nbrs generalizing work with
  | nil => intro r h; simp [scanNeighbors] at h
  | cons p rest ih =>
    intro r h
    simp only [scanNeighbors] at h
    split_ifs at h with hp hin
    · subst hp
      exact (Sum.inl.inj h).symm
    · exact ih work r h
    · exact ih _ r h

/-- Any route `findRoute`'s loop returns is nonempty. -/
lemma findRouteGo_some_ne_nil (g : Graph) (dest : String) :
    ∀ (fuel : Nat) (work : List Entry) (i : Nat) (r : List String),
      findRouteGo g dest fuel work i = some r → r ≠ [] := by
  intro fuel
  induction fuel with
  | zero => intro work i r h; simp [findRouteGo] at h
  | succ f ih =>
    intro work i r h
    by_cases hi : i < work.length
    · simp only [findRouteGo, dif_pos hi] at h
      rcases hscan : scanNeighbors dest (work.get ⟨i, hi⟩).route work
          (neighbors g (work.get ⟨i, hi⟩).loc) with r' | work2
      · rw [hscan] at h
        simp only [Option.some.injEq] at h
        subst h
        have := scanNeighbors_inl dest (work.get ⟨i, hi⟩).route work _ r' hscan
        subst this
        simp
      · rw [hscan] at h
        exact ih work2 (i+1) r h
    · simp [findRouteGo, dif_neg hi] at h

/-- C4 amended: `calculateDistance(graph, X, X)` does return `0` (the
start is dequeued first and immediately matches the target), but
`findRoute(graph, X, X)` does not return an empty route: every route the
search returns is nonempty, and on the graph built from `["A-B"]` it
returns the cycle `["B", "A"]`. -/
theorem claim_C4_amended (edges : List String) (X : String)
    (hkey : (lookupG (buildGraph edges) X).isSome) :
    (∀ fuel, 1 ≤ fuel →
      calculateDistance (buildGraph edges) X X fuel = some (0 : WithTop Nat)) ∧
    (∀ fuel work i r, findRouteGo (buildGraph edges) X fuel work i = some r → r ≠ []) ∧
    (∀ r, findRoute (buildGraph edges) X X = some r → r ≠ []) := by
  refine ⟨?_, ?_, ?_⟩
  · intro fuel hfuel
    obtain ⟨f, rfl⟩ := Nat.exists_eq_succ_of_ne_zero (Nat.pos_iff_ne_zero.mp hfuel)
    simp [calculateDistance, calcGo]
  · intro fuel work i r h
    exact findRouteGo_some_ne_nil (buildGraph edges) X fuel work i r h
  · intro r h
    exact findRouteGo_some_ne_nil (buildGraph edges) X _ _ _ r h


/-! ### Path and distance theory -/

def isPath (g : Graph) : String → List String → String → Prop
  | a, [], b => a = b
  | a, x :: l, b => x ∈ neighbors g a ∧ isPath g x l b

instance instDecidableIsPath (g : Graph) : ∀ a l b, Decidable (isPath g a l b)
  | a, [], b => inferInstanceAs (Decidable (a = b))
  | a, x :: l, b =>
    haveI := instDecidableIsPath g x l b
    inferInstanceAs (Decidable (_ ∧ _))

def reach (g : Graph) (a b : String) : Prop := ∃ l, isPath g a l b

def reachIn (g : Graph) (a b : String) (n : Nat) : Prop :=
  ∃ l, isPath g a l b ∧ l.length ≤ n

def distIs (g : Graph) (a b : String) (n : Nat) : Prop :=
  (∃ l, isPath g a l b ∧ l.length = n) ∧ ∀ l, isPath g a l b → n ≤ l.length

lemma reach_refl (g : Graph) (a : String) : reach g a a := ⟨[], rfl⟩

lemma isPath_append (g : Graph) :
    ∀ (l₁ l₂ : List String) (a c : String),
      isPath g a (l₁ ++ l₂) c ↔ ∃ b, isPath g a l₁ b ∧ isPath g b l₂ c := by
  intro l₁
  induction l₁ with
  | nil =>
    intro l₂ a c
    constructor
    · intro h; exact ⟨a, rfl, h⟩
    · rintro ⟨b, hb, h⟩
      have : a = b := hb
      rwa [this]
  | cons x l ih =>
    intro l₂ a c
    constructor
    · rintro ⟨hx, h⟩
      obtain ⟨b, h1, h2⟩ := (ih l₂ x c).mp h
      exact ⟨b, ⟨hx, h1⟩, h2⟩
    · rintro ⟨b, ⟨hx, h1⟩, h2⟩
      exact ⟨hx, (ih l₂ x c).mpr ⟨b, h1, h2⟩⟩

lemma isPath_snoc (g : Graph) (a b x : String) (l : List String) :
    isPath g a (l ++ [x]) b ↔ ∃ m, isPath g a l m ∧ x ∈ neighbors g m ∧ x = b := by
  rw [isPath_append]
  constructor
  · rintro ⟨m, h1, h2⟩
    obtain ⟨hmem, heq⟩ := h2
    exact ⟨m, h1, hmem, heq⟩
  · rintro ⟨m, h1, hmem, heq⟩
    exact ⟨m, h1, hmem, heq⟩

lemma exists_distIs_of_reach {g : Graph} {a b : String} (h : reach g a b) :
    ∃ n, distIs g a b n := by
  classical
  obtain ⟨l, hl⟩ := h
  have hex : ∃ n, ∃ l', isPath g a l' b ∧ l'.length = n := ⟨l.length, l, hl, rfl⟩
  refine ⟨Nat.find hex, ?_, ?_⟩
  · exact Nat.find_spec hex
  · intro l' hl'
    exact Nat.find_min' hex ⟨l', hl', rfl⟩

lemma distIs_unique {g : Graph} {a b : String} {m n : Nat}
    (hm : distIs g a b m) (hn : distIs g a b n) : m = n := by
  obtain ⟨⟨l, hl, rfl⟩, hmin⟩ := hm
  obtain ⟨⟨l', hl', rfl⟩, hmin'⟩ := hn
  exact le_antisymm (hmin l' hl') (hmin' l hl)

lemma exists_distIs_le_of_reachIn {g : Graph} {a b : String} {n : Nat}
    (h : reachIn g a b n) : ∃ m ≤ n, distIs g a b m := by
  obtain ⟨l, hl, hlen⟩ := h
  obtain ⟨m, hm⟩ := exists_distIs_of_reach ⟨l, hl⟩
  exact ⟨m, le_trans (hm.2 l hl) hlen, hm⟩

lemma distIs_self (g : Graph) (a : String) : distIs g a a 0 :=
  ⟨⟨[], rfl, rfl⟩, fun _ _ => Nat.zero_le _⟩

lemma distIs_zero {g : Graph} {a b : String} (h : distIs g a b 0) : a = b := by
  obtain ⟨⟨l, hl, hlen⟩, _⟩ := h
  rw [List.length_eq_zero] at hlen
  subst hlen
  exact hl

lemma distIs_pred {g : Graph} {a x : String} {m : Nat}
    (h : distIs g a x (m + 1)) : ∃ y, x ∈ neighbors g y ∧ distIs g a y m := by
  obtain ⟨⟨l, hl, hlen⟩, hmin⟩ := h
  have hne : l ≠ [] := by
    intro h0; rw [h0] at hlen; simp at hlen
  obtain ⟨l', z, rfl⟩ := List.eq_nil_or_concat l |>.resolve_left hne
  rw [List.concat_eq_append] at hl hlen
  obtain ⟨y, hy, hmem, heq⟩ := (isPath_snoc g a x z l').mp hl
  subst heq
  have hlen' : l'.length = m := by
    simpa using hlen
  obtain ⟨m', hm'le, hm'⟩ := exists_distIs_le_of_reachIn ⟨l', hy, le_of_eq hlen'⟩
  have hge : m ≤ m' := by
    obtain ⟨⟨p, hp, hplen⟩, _⟩ := hm'
    have hpath : isPath g a (p ++ [z]) z := (isPath_snoc g a z z p).mpr ⟨y, hp, hmem, rfl⟩
    have hmin' := hmin (p ++ [z]) hpath
    simp [hplen] at hmin'
    omega
  have heq2 : m' = m := le_antisymm hm'le hge
  subst heq2
  exact ⟨y, hmem, hm'⟩

lemma reachIn_succ_of_distIs {g : Graph} {a y : String} {m : Nat}
    (h : distIs g a y m) (x : String) (hx : x ∈ neighbors g y) :
    reachIn g a x (m + 1) := by
  obtain ⟨⟨l, hl, hlen⟩, _⟩ := h
  exact ⟨l ++ [x], (isPath_snoc g a x x l).mpr ⟨y, hl, hx, rfl⟩, by simp [hlen]⟩

lemma mem_nodesOf {g : Graph} {k x : String} (h : x ∈ neighbors g k) : x ∈ nodesOf g := by
  unfold neighbors at h
  rcases hl : lookupG g k with _ | vs
  · rw [hl] at h; simp at h
  · rw [hl] at h
    simp only [Option.getD_some] at h
    have hmem : (k, vs).2 ∈ g.map Prod.snd ∨ vs ∈ g.map Prod.snd := by
      right
      clear h
      induction g with
      | nil => simp [lookupG] at hl
      | cons hd tl ih =>
        obtain ⟨k', vs'⟩ := hd
        by_cases hk : k' = k
        · simp [lookupG, hk] at hl
          simp [hl]
        · simp only [lookupG, if_neg hk] at hl
          simp [ih hl]
    rcases hmem with h2 | h2
    · exact List.mem_flatten.mpr ⟨vs, h2, h⟩
    · exact List.mem_flatten.mpr ⟨vs, h2, h⟩


/-! ### Specification of the neighbor scan -/

lemma scan_inr_spec (dest : String) (route : List String) :
    ∀ (nbrs : List String) (work work2 : List Entry),
      scanNeighbors dest route work nbrs = Sum.inr work2 →
      (∃ tailE, work2 = work ++ tailE ∧
        (∀ e ∈ tailE, e.route = route ++ [e.loc] ∧ e.loc ∈ nbrs ∧ e.loc ≠ dest ∧
          ∀ w ∈ work, w.loc ≠ e.loc)) ∧
      (∀ x ∈ nbrs, x ≠ dest ∧ ∃ e ∈ work2, e.loc = x) ∧
      ((work.map Entry.loc).Nodup → (work2.map Entry.loc).Nodup) := by
  intro nbrs
  induction nbrs with
  | nil =>
    intro work work2 h
    simp only [scanNeighbors, Sum.inr.injEq] at h
    subst h
    exact ⟨⟨[], by simp⟩, by simp, fun h => h⟩
  | cons p rest ih =>
    intro work work2 h
    by_cases hp : p = dest
    · simp only [scanNeighbors, if_pos hp] at h
      exact Sum.noConfusion h
    · by_cases hin : (work.any fun w => w.loc == p) = true
      · simp only [scanNeighbors, if_neg hp, if_pos hin] at h
        obtain ⟨⟨tailE, rfl, htail⟩, hcov, hnodup⟩ := ih work work2 h
        obtain ⟨w, hw, hwp⟩ := List.any_eq_true.mp hin
        refine ⟨⟨tailE, rfl, fun e he => ⟨(htail e he).1,
          List.mem_cons_of_mem p (htail e he).2.1,
          (htail e he).2.2.1, (htail e he).2.2.2⟩⟩, ?_, hnodup⟩
        intro x hx
        rcases List.mem_cons.mp hx with rfl | hx'
        · exact ⟨hp, w, List.mem_append_left _ hw, eq_of_beq hwp⟩
        · exact hcov x hx'
      · simp only [scanNeighbors, if_neg hp, if_neg hin] at h
        obtain ⟨⟨tailE, htl, htail⟩, hcov, hnodup⟩ :=
          ih (work ++ [⟨p, route ++ [p]⟩]) work2 h
        rw [List.append_assoc] at htl
        refine ⟨⟨⟨p, route ++ [p]⟩ :: tailE, htl, ?_⟩, ?_, ?_⟩
        · intro e he
          rcases List.mem_cons.mp he with rfl | he'
          · refine ⟨rfl, List.mem_cons_self _ _, hp, ?_⟩
            intro w hw hwl
            exact hin (List.any_eq_true.mpr ⟨w, hw, by simp [hwl]⟩)
          · obtain ⟨h1, h2, h3, h4⟩ := htail e he'
            refine ⟨h1, List.mem_cons_of_mem p h2, h3, ?_⟩
            intro w hw
            exact h4 w (List.mem_append_left _ hw)
        · intro x hx
          rcases List.mem_cons.mp hx with rfl | hx'
          · refine ⟨hp, ⟨x, route ++ [x]⟩, ?_, rfl⟩
            rw [htl]
            exact List.mem_append_right _ (List.mem_cons_self _ _)
          · exact hcov x hx'
        · intro hnd
          apply hnodup
          simp only [List.map_append, List.map_cons, List.map_nil]
          rw [List.nodup_append]
          refine ⟨hnd, List.nodup_singleton p, ?_⟩
          intro a ha hb
          simp only [List.mem_singleton] at hb
          subst hb
          obtain ⟨w, hw, rfl⟩ := List.mem_map.mp ha
          exact hin (List.any_eq_true.mpr ⟨w, hw, by simp⟩)

/-- An `inl` result: the returned route is the accumulated route extended
by the destination, and the destination really occurs among the scanned
neighbors. -/
lemma scan_inl_spec (dest : String) (route : List String) :
    ∀ (nbrs : List String) (work : List Entry) (r : List String),
      scanNeighbors dest route work nbrs = Sum.inl r →
      r = route ++ [dest] ∧ dest ∈ nbrs := by
  intro nbrs
  induction nbrs with
  | nil => intro work r h; simp [scanNeighbors] at h
  | cons p rest ih =>
    intro work r h
    simp only [scanNeighbors] at h
    split_ifs at h with hp hin
    · subst hp
      exact ⟨(Sum.inl.inj h).symm, List.mem_cons_self _ _⟩
    · obtain ⟨h1, h2⟩ := ih work r h
      exact ⟨h1, List.mem_cons_of_mem p h2⟩
    · obtain ⟨h1, h2⟩ := ih _ r h
      exact ⟨h1, List.mem_cons_of_mem p h2⟩


/-! ### The findRoute loop invariant -/

structure RouteInv (g : Graph) (start dest : String) (work : List Entry) (i : Nat) : Prop where
  ilen : i ≤ work.length
  nodup : (work.map Entry.loc).Nodup
  nodest : ∀ e ∈ work, e.loc ≠ dest
  startMem : ∃ e ∈ work, e.loc = start
  subset : ∀ e ∈ work, e.loc = start ∨ e.loc ∈ nodesOf g
  pathR : ∀ e ∈ work, isPath g start e.route e.loc
  minR : ∀ e ∈ work, distIs g start e.loc e.route.length
  sorted : List.Pairwise (· ≤ ·) (work.map (fun e => e.route.length))
  bounded : ∀ (hi : i < work.length), ∀ e ∈ work,
      e.route.length ≤ work[i].route.length + 1
  processedD : ∀ e ∈ work.take i, ∀ x ∈ neighbors g e.loc,
      x ≠ dest ∧ ∃ e2 ∈ work, e2.loc = x
  frontier : ∀ (hi : i < work.length), ∀ x m, distIs g start x m → x ≠ dest →
      m ≤ work[i].route.length → ∃ e ∈ work, e.loc = x

/-- A nodup work list whose locations come from `start :: nodesOf g` is no
longer than the dedup of that list. -/
lemma work_length_le {g : Graph} {start : String} {work : List Entry}
    (hnd : (work.map Entry.loc).Nodup)
    (hsub : ∀ e ∈ work, e.loc = start ∨ e.loc ∈ nodesOf g) :
    work.length ≤ ((start :: nodesOf g).dedup).length := by
  have h1 : (work.map Entry.loc).toFinset.card = work.length := by
    rw [List.toFinset_card_of_nodup hnd, List.length_map]
  have h2 : (work.map Entry.loc).toFinset ⊆ (start :: nodesOf g).toFinset := by
    intro a ha
    rw [List.mem_toFinset] at ha ⊢
    obtain ⟨e, he, rfl⟩ := List.mem_map.mp ha
    rcases hsub e he with h | h
    · rw [h]; exact List.mem_cons_self _ _
    · exact List.mem_cons_of_mem _ h
  have h4 : ((start :: nodesOf g).dedup).toFinset = (start :: nodesOf g).toFinset := by
    ext a; simp
  have h3 : ((start :: nodesOf g).dedup).toFinset.card = ((start :: nodesOf g).dedup).length :=
    List.toFinset_card_of_nodup (List.nodup_dedup _)
  calc work.length = (work.map Entry.loc).toFinset.card := h1.symm
    _ ≤ (start :: nodesOf g).toFinset.card := Finset.card_le_card h2
    _ = ((start :: nodesOf g).dedup).toFinset.card := by rw [h4]
    _ = ((start :: nodesOf g).dedup).length := h3

/-- In a work list with nondecreasing route lengths, an entry strictly
shorter than entry `i` sits strictly before index `i`. -/
lemma mem_take_of_len_lt {work : List Entry} {i : Nat}
    (hsort : List.Pairwise (· ≤ ·) (work.map (fun e => e.route.length)))
    {e : Entry} (he : e ∈ work) (hi : i < work.length)
    (hlt : e.route.length < work[i].route.length) : e ∈ work.take i := by
  obtain ⟨j, hj, rfl⟩ := List.mem_iff_getElem.mp he
  rcases Nat.lt_or_ge j i with hji | hji
  · have hjt : j < (work.take i).length := by
      rw [List.length_take]; exact lt_min hji hj
    have hgt : (work.take i)[j] = work[j] := List.getElem_take work
    rw [← hgt]
    exact List.getElem_mem hjt
  · exfalso
    rcases Nat.eq_or_lt_of_le hji with heq | hlt2
    · subst heq
      exact lt_irrefl _ hlt
    · have hp := List.pairwise_iff_getElem.mp hsort i j
        (by simpa using hi) (by simpa using hj) hlt2
      simp only [List.getElem_map] at hp
      omega

/-- An entry no longer than entry `i` sits at an index at most `i`:
it is in the processed prefix or is entry `i` itself. -/
lemma mem_take_or_eq_of_le {work : List Entry} {i : Nat}
    (hsort : List.Pairwise (· ≤ ·) (work.map (fun e => e.route.length)))
    {e : Entry} (he : e ∈ work) (hi : i < work.length)
    (hcond : ∀ (hii : i + 1 < work.length),
      e.route.length < work[i + 1].route.length) :
    e ∈ work.take i ∨ e = work[i] := by
  obtain ⟨j, hj, rfl⟩ := List.mem_iff_getElem.mp he
  rcases Nat.lt_or_ge j i with hji | hji
  · left
    have hjt : j < (work.take i).length := by
      rw [List.length_take]; exact lt_min hji hj
    have hgt : (work.take i)[j] = work[j] := List.getElem_take work
    rw [← hgt]
    exact List.getElem_mem hjt
  · rcases Nat.eq_or_lt_of_le hji with heq | hlt2
    · subst heq; right; rfl
    · exfalso
      have hii : i + 1 < work.length := Nat.lt_of_le_of_lt hlt2 hj
      have hc := hcond hii
      rcases Nat.eq_or_lt_of_le (Nat.succ_le_of_lt hlt2) with heq1 | hlt1
      · have heq1' : i + 1 = j := heq1
        subst heq1'
        exact lt_irrefl _ hc
      · have hp := List.pairwise_iff_getElem.mp hsort (i+1) j
          (by simpa using hii) (by simpa using hj) hlt1
        simp only [List.getElem_map] at hp
        omega


lemma no_short_dest {g : Graph} {start dest : String} {work : List Entry} {i : Nat}
    (inv : RouteInv g start dest work i) (hi : i < work.length) :
    ∀ m ≤ work[i].route.length, ¬ distIs g start dest m := by
  intro m hm hdist
  rcases m with _ | m'
  · have hsd : start = dest := distIs_zero hdist
    obtain ⟨e, he, hloc⟩ := inv.startMem
    exact inv.nodest e he (hloc.trans hsd)
  · obtain ⟨y, hxy, hdy⟩ := distIs_pred hdist
    have hyne : y ≠ dest := by
      intro h
      subst h
      have := distIs_unique hdy hdist
      omega
    obtain ⟨ey, hey, heyloc⟩ := inv.frontier hi y m' hdy hyne (by omega)
    have hlen : ey.route.length = m' := distIs_unique (inv.minR ey hey) (heyloc ▸ hdy)
    have htake : ey ∈ work.take i :=
      mem_take_of_len_lt inv.sorted hey hi (by omega)
    have := (inv.processedD ey htake dest (heyloc ▸ hxy)).1
    exact this rfl

lemma routeInv_step {g : Graph} {start dest : String} {work : List Entry} {i : Nat}
    (inv : RouteInv g start dest work i) (hi : i < work.length) {work2 : List Entry}
    (hscan : scanNeighbors dest work[i].route work (neighbors g work[i].loc) = Sum.inr work2) :
    RouteInv g start dest work2 (i + 1) := by
  obtain ⟨⟨tailE, rfl, htail⟩, hcov, hnodup⟩ := scan_inr_spec _ _ _ _ _ hscan
  have heImem : work[i] ∈ work := List.getElem_mem hi
  have hminI : distIs g start work[i].loc work[i].route.length := inv.minR _ heImem
  have htlen : ∀ e ∈ tailE, e.route.length = work[i].route.length + 1 := by
    intro e he
    rw [(htail e he).1]
    simp
  have htmin : ∀ e ∈ tailE, distIs g start e.loc (work[i].route.length + 1) := by
    intro e he
    obtain ⟨hroute, hnb, hnd, hnew⟩ := htail e he
    have hpath : isPath g start (work[i].route ++ [e.loc]) e.loc :=
      (isPath_snoc g start e.loc e.loc work[i].route).mpr
        ⟨work[i].loc, inv.pathR _ heImem, hnb, rfl⟩
    obtain ⟨m, hmle, hm⟩ := exists_distIs_le_of_reachIn
      ⟨work[i].route ++ [e.loc], hpath, le_refl _⟩
    rw [List.length_append, List.length_singleton] at hmle
    rcases Nat.lt_or_ge work[i].route.length m with hgt | hle
    · have : m = work[i].route.length + 1 := by omega
      subst this
      exact hm
    · exfalso
      obtain ⟨e2, he2, he2loc⟩ := inv.frontier hi e.loc m hm hnd hle
      exact hnew e2 he2 he2loc
  have hilen2 : i < (work ++ tailE).length := by
    rw [List.length_append]
    omega
  have hgetI : (work ++ tailE)[i] = work[i] := List.getElem_append_left hi
  have hsorted2 : List.Pairwise (· ≤ ·) ((work ++ tailE).map (fun e => e.route.length)) := by
    rw [List.map_append, List.pairwise_append]
    refine ⟨inv.sorted, ?_, ?_⟩
    · apply List.pairwise_of_forall_mem_list
      intro a ha b hb
      obtain ⟨ea, hea, rfl⟩ := List.mem_map.mp ha
      obtain ⟨eb, heb, rfl⟩ := List.mem_map.mp hb
      rw [htlen ea hea, htlen eb heb]
    · intro a ha b hb
      obtain ⟨ea, hea, rfl⟩ := List.mem_map.mp ha
      obtain ⟨eb, heb, rfl⟩ := List.mem_map.mp hb
      rw [htlen eb heb]
      exact inv.bounded hi ea hea
  -- facts about the entry at index i+1 of the grown list, when it exists
  have hlen21 : ∀ (hii : i + 1 < (work ++ tailE).length),
      work[i].route.length ≤ (work ++ tailE)[i + 1].route.length ∧
      (work ++ tailE)[i + 1].route.length ≤ work[i].route.length + 1 := by
    intro hii
    constructor
    · have hp := List.pairwise_iff_getElem.mp hsorted2 i (i + 1)
        (by rw [List.length_map]; omega) (by rw [List.length_map]; exact hii)
        (Nat.lt_succ_self i)
      simp only [List.getElem_map] at hp
      rw [hgetI] at hp
      exact hp
    · have hmem : (work ++ tailE)[i + 1] ∈ work ++ tailE := List.getElem_mem hii
      rcases List.mem_append.mp hmem with hw | ht
      · exact inv.bounded hi _ hw
      · rw [htlen _ ht]
  have htake2 : (work ++ tailE).take (i + 1) = work.take i ++ [work[i]] := by
    rw [List.take_append_of_le_length (by omega), List.take_succ]
    congr
    rw [List.getElem?_eq_getElem hi]
    rfl
  refine ⟨?_, hnodup inv.nodup, ?_, ?_, ?_, ?_, ?_, hsorted2, ?_, ?_, ?_⟩
  · -- ilen
    rw [List.length_append]
    omega
  · -- nodest
    intro e he
    rcases List.mem_append.mp he with hw | ht
    · exact inv.nodest e hw
    · exact (htail e ht).2.2.1
  · -- startMem
    obtain ⟨e, he, hloc⟩ := inv.startMem
    exact ⟨e, List.mem_append_left _ he, hloc⟩
  · -- subset
    intro e he
    rcases List.mem_append.mp he with hw | ht
    · exact inv.subset e hw
    · exact Or.inr (mem_nodesOf (htail e ht).2.1)
  · -- pathR
    intro e he
    rcases List.mem_append.mp he with hw | ht
    · exact inv.pathR e hw
    · rw [(htail e ht).1]
      exact (isPath_snoc g start e.loc e.loc work[i].route).mpr
        ⟨work[i].loc, inv.pathR _ heImem, (htail e ht).2.1, rfl⟩
  · -- minR
    intro e he
    rcases List.mem_append.mp he with hw | ht
    · exact inv.minR e hw
    · rw [htlen e ht]
      exact htmin e ht
  · -- bounded
    intro hii e he
    obtain ⟨hge, _⟩ := hlen21 hii
    rcases List.mem_append.mp he with hw | ht
    · have := inv.bounded hi e hw
      omega
    · rw [htlen e ht]
      omega
  · -- processedD
    intro e he x hx
    rw [htake2] at he
    rcases List.mem_append.mp he with hw | ht
    · obtain ⟨hnd, e2, he2, hloc⟩ := inv.processedD e hw x hx
      exact ⟨hnd, e2, List.mem_append_left _ he2, hloc⟩
    · have heq : e = work[i] := by simpa using ht
      subst heq
      exact hcov x hx
  · -- frontier
    intro hii x m hdx hxne hmle
    obtain ⟨hge, hle⟩ := hlen21 hii
    rcases le_or_lt m work[i].route.length with hm | hm
    · obtain ⟨e, he, hloc⟩ := inv.frontier hi x m hdx hxne hm
      exact ⟨e, List.mem_append_left _ he, hloc⟩
    · have hmeq : m = work[i].route.length + 1 := by omega
      subst hmeq
      obtain ⟨y, hxy, hdy⟩ := distIs_pred hdx
      have hyne : y ≠ dest := by
        intro h
        subst h
        exact no_short_dest inv hi _ (le_refl _) hdy
      obtain ⟨ey, hey, heyloc⟩ := inv.frontier hi y _ hdy hyne (le_refl _)
      have hleny : ey.route.length = work[i].route.length :=
        distIs_unique (inv.minR ey hey) (heyloc ▸ hdy)
      have hcond : ∀ (hii2 : i + 1 < work.length),
          ey.route.length < work[i + 1].route.length := by
        intro hii2
        have hw21 : (work ++ tailE)[i + 1] = work[i + 1] := List.getElem_append_left hii2
        rw [hleny]
        rw [hw21] at hle hge hmle
        omega
      rcases mem_take_or_eq_of_le inv.sorted hey hi hcond with htk | heqi
      · obtain ⟨hnd2, e2, he2, hloc2⟩ := inv.processedD ey htk x (heyloc ▸ hxy)
        exact ⟨e2, List.mem_append_left _ he2, hloc2⟩
      · subst heqi
        exact (hcov x (heyloc ▸ hxy)).2

lemma routeInv_init (g : Graph) (start dest : String) (hne : start ≠ dest) :
    RouteInv g start dest [⟨start, []⟩] 0 := by
  refine ⟨by simp, by simp, ?_, ⟨⟨start, []⟩, by simp, rfl⟩, ?_, ?_, ?_, by simp, ?_, by simp, ?_⟩
  · intro e he
    simp only [List.mem_singleton] at he
    subst he
    exact hne
  · intro e he
    simp only [List.mem_singleton] at he
    subst he
    exact Or.inl rfl
  · intro e he
    simp only [List.mem_singleton] at he
    subst he
    exact rfl
  · intro e he
    simp only [List.mem_singleton] at he
    subst he
    exact distIs_self g start
  · intro hi e he
    simp only [List.mem_singleton] at he
    subst he
    simp
  · intro hi x m hd hxne hm
    simp only [List.getElem_singleton, List.length_nil, Nat.le_zero] at hm
    subst hm
    have := distIs_zero hd
    exact ⟨⟨start, []⟩, by simp, this⟩

lemma not_reach_of_exhausted {g : Graph} {start dest : String} {work : List Entry} {i : Nat}
    (inv : RouteInv g start dest work i) (hex : work.length ≤ i) :
    ¬ reach g start dest := by
  have hall : work.take i = work := List.take_of_length_le hex
  intro hreach
  have claimA : ∀ k, ∀ x, distIs g start x k → x ≠ dest → ∃ e ∈ work, e.loc = x := by
    intro k
    induction k using Nat.strong_induction_on with
    | _ k ih =>
      intro x hx hxne
      rcases k with _ | k'
      · obtain ⟨e, he, hloc⟩ := inv.startMem
        exact ⟨e, he, hloc.trans (distIs_zero hx)⟩
      · obtain ⟨y, hxy, hdy⟩ := distIs_pred hx
        have hyne : y ≠ dest := by
          intro h
          subst h
          rcases k' with _ | k''
          · obtain ⟨e, he, hloc⟩ := inv.startMem
            exact inv.nodest e he (hloc.trans (distIs_zero hdy))
          · obtain ⟨z, hyz, hdz⟩ := distIs_pred hdy
            have hzne : z ≠ y := by
              intro h
              subst h
              have := distIs_unique hdz hdy
              omega
            obtain ⟨ez, hez, hezloc⟩ := ih k'' (by omega) z hdz hzne
            rw [← hall] at hez
            exact (inv.processedD ez hez y (hezloc ▸ hyz)).1 rfl
        obtain ⟨ey, hey, heyloc⟩ := ih k' (by omega) y hdy hyne
        rw [← hall] at hey
        exact (inv.processedD ey hey x (heyloc ▸ hxy)).2
  obtain ⟨mD, hmD⟩ := exists_distIs_of_reach hreach
  rcases mD with _ | m
  · obtain ⟨e, he, hloc⟩ := inv.startMem
    exact inv.nodest e he (hloc.trans (distIs_zero hmD))
  · obtain ⟨y, hxy, hdy⟩ := distIs_pred hmD
    have hyne : y ≠ dest := by
      intro h
      subst h
      have := distIs_unique hdy hmD
      omega
    obtain ⟨ey, hey, heyloc⟩ := claimA m y hdy hyne
    rw [← hall] at hey
    exact (inv.processedD ey hey dest (heyloc ▸ hxy)).1 rfl

lemma findRouteGo_none_of_not_reach {g : Graph} {start dest : String}
    (hnr : ¬ reach g start dest) :
    ∀ (fuel : Nat) (work : List Entry) (i : Nat), RouteInv g start dest work i →
      ((start :: nodesOf g).dedup.length + 1 - i) ≤ fuel →
      findRouteGo g dest fuel work i = none := by
  intro fuel
  induction fuel with
  | zero =>
    intro work i inv hfuel
    exfalso
    have h1 := work_length_le inv.nodup inv.subset
    have h2 := inv.ilen
    omega
  | succ f ih =>
    intro work i inv hfuel
    by_cases hi : i < work.length
    · simp only [findRouteGo, dif_pos hi]
      rcases hscan : scanNeighbors dest (work.get ⟨i, hi⟩).route work
          (neighbors g (work.get ⟨i, hi⟩).loc) with r | work2
      · exfalso
        rw [List.get_eq_getElem] at hscan
        obtain ⟨hr, hmem⟩ := scan_inl_spec _ _ _ _ _ hscan
        have hpath : isPath g start (work[i].route ++ [dest]) dest :=
          (isPath_snoc g start dest dest work[i].route).mpr
            ⟨work[i].loc, inv.pathR _ (List.getElem_mem hi), hmem, rfl⟩
        exact hnr ⟨work[i].route ++ [dest], hpath⟩
      · rw [List.get_eq_getElem] at hscan
        have inv2 := routeInv_step inv hi hscan
        have h1 := work_length_le inv.nodup inv.subset
        exact ih work2 (i+1) inv2 (by omega)
    · simp [findRouteGo, dif_neg hi]

lemma findRouteGo_some_of_reach {g : Graph} {start dest : String}
    (hr : reach g start dest) :
    ∀ (fuel : Nat) (work : List Entry) (i : Nat), RouteInv g start dest work i →
      ((start :: nodesOf g).dedup.length + 1 - i) ≤ fuel →
      ∃ r, findRouteGo g dest fuel work i = some r ∧ isPath g start r dest ∧
        ∀ l, isPath g start l dest → r.length ≤ l.length := by
  intro fuel
  induction fuel with
  | zero =>
    intro work i inv hfuel
    exfalso
    have h1 := work_length_le inv.nodup inv.subset
    have h2 := inv.ilen
    omega
  | succ f ih =>
    intro work i inv hfuel
    by_cases hi : i < work.length
    · simp only [findRouteGo, dif_pos hi]
      rcases hscan : scanNeighbors dest (work.get ⟨i, hi⟩).route work
          (neighbors g (work.get ⟨i, hi⟩).loc) with r | work2
      · rw [List.get_eq_getElem] at hscan
        obtain ⟨hreq, hmem⟩ := scan_inl_spec _ _ _ _ _ hscan
        subst hreq
        refine ⟨work[i].route ++ [dest], rfl, ?_, ?_⟩
        · exact (isPath_snoc g start dest dest work[i].route).mpr
            ⟨work[i].loc, inv.pathR _ (List.getElem_mem hi), hmem, rfl⟩
        · intro l hl
          obtain ⟨m, hmle, hm⟩ := exists_distIs_le_of_reachIn ⟨l, hl, le_refl _⟩
          have hnot := no_short_dest inv hi
          have hgt : work[i].route.length < m := by
            rcases le_or_lt m work[i].route.length with hc | hc
            · exact absurd hm (hnot m hc)
            · exact hc
          rw [List.length_append, List.length_singleton]
          omega
      · rw [List.get_eq_getElem] at hscan
        have inv2 := routeInv_step inv hi hscan
        have h1 := work_length_le inv.nodup inv.subset
        exact ih work2 (i+1) inv2 (by omega)
    · exfalso
      exact not_reach_of_exhausted inv (by omega) hr

/-! ### The calculateDistance loop invariant -/

structure CalcInv (g : Graph) (start dest : String)
    (visited : List String) (queue : List (String × Nat)) : Prop where
  mono : List.Pairwise (fun p q : String × Nat => p.2 ≤ q.2) queue
  span : ∀ p ∈ queue, ∀ hd ∈ queue.head?, p.2 ≤ hd.2 + 1
  reachQ : ∀ p ∈ queue, reachIn g start p.1 p.2
  reachV : ∀ x ∈ visited, reach g start x
  closed : ∀ hd ∈ queue.head?, ∀ x m, m < hd.2 → distIs g start x m → x ∈ visited
  complete : ∀ hd ∈ queue.head?, ∀ x m, distIs g start x m → x ∉ visited → m ≤ hd.2 + 1 →
      ((x, m) ∈ queue ∨ ∃ y my, x ∈ neighbors g y ∧ distIs g start y my ∧ my + 1 = m ∧
        y ∉ visited ∧ (y, my) ∈ queue)
  vclosure : ∀ z ∈ visited, ∀ x ∈ neighbors g z, x ∈ visited ∨ ∃ d, (x, d) ∈ queue
  toNV : dest ∉ visited
  startV : start ∈ visited ∨ ∃ d, (start, d) ∈ queue
  vnodup : visited.Nodup

lemma reachIn_mono {g : Graph} {a b : String} {m n : Nat} (h : reachIn g a b m)
    (hmn : m ≤ n) : reachIn g a b n := by
  obtain ⟨l, hl, hlen⟩ := h
  exact ⟨l, hl, le_trans hlen hmn⟩

lemma reachIn_succ {g : Graph} {a b : String} {n : Nat} (h : reachIn g a b n)
    (x : String) (hx : x ∈ neighbors g b) : reachIn g a x (n + 1) := by
  obtain ⟨l, hl, hlen⟩ := h
  exact ⟨l ++ [x], (isPath_snoc g a x x l).mpr ⟨b, hl, hx, rfl⟩, by
    rw [List.length_append, List.length_singleton]; omega⟩

lemma distIs_le_of_reachIn {g : Graph} {a b : String} {m n : Nat}
    (hd : distIs g a b m) (hr : reachIn g a b n) : m ≤ n := by
  obtain ⟨l, hl, hlen⟩ := hr
  exact le_trans (hd.2 l hl) hlen

lemma reachIn_universe {g : Graph} {start c : String} {k : Nat}
    (h : reachIn g start c k) : c = start ∨ c ∈ nodesOf g := by
  obtain ⟨l, hl, _⟩ := h
  rcases List.eq_nil_or_concat l with rfl | ⟨l', z, rfl⟩
  · exact Or.inl hl.symm
  · rw [List.concat_eq_append] at hl
    obtain ⟨y, _, hmem, heq⟩ := (isPath_snoc g start c z l').mp hl
    subst heq
    exact Or.inr (mem_nodesOf hmem)

/-- Once the queue is empty, every reachable location has been visited. -/
lemma all_visited_of_empty {g : Graph} {start dest : String} {visited : List String}
    (inv : CalcInv g start dest visited []) :
    ∀ m x, distIs g start x m → x ∈ visited := by
  intro m
  induction m using Nat.strong_induction_on with
  | _ m ih =>
    intro x hx
    rcases m with _ | m'
    · have hxs : start = x := distIs_zero hx
      rcases inv.startV with h | ⟨d, hd⟩
      · exact hxs ▸ h
      · simp at hd
    · obtain ⟨y, hxy, hdy⟩ := distIs_pred hx
      have hy := ih m' (by omega) y hdy
      rcases inv.vclosure y hy x hxy with h | ⟨d, hd⟩
      · exact h
      · simp at hd

/-- The initial state of the search satisfies the invariant. -/
lemma calcInv_init (g : Graph) (start dest : String) (hne : start ≠ dest) :
    CalcInv g start dest [] [(start, 0)] := by
  refine ⟨?_, ?_, ?_, by simp, ?_, ?_, by simp, by simp, Or.inr ⟨0, by simp⟩, List.nodup_nil⟩
  · simp
  · intro p hp hd hhd
    simp only [List.mem_singleton] at hp
    simp only [List.head?_cons, Option.mem_def, Option.some.injEq] at hhd
    subst hp
    subst hhd
    simp
  · intro p hp
    simp only [List.mem_singleton] at hp
    subst hp
    exact ⟨[], rfl, by simp⟩
  · intro hd hhd x m hm hdx
    simp only [List.head?_cons, Option.mem_def, Option.some.injEq] at hhd
    subst hhd
    simp at hm
  · intro hd hhd x m hdx hxv hmle
    simp only [List.head?_cons, Option.mem_def, Option.some.injEq] at hhd
    subst hhd
    simp only at hmle
    rcases m with _ | m'
    · left
      have : start = x := distIs_zero hdx
      subst this
      simp
    · have hm1 : m' = 0 := by omega
      subst hm1
      obtain ⟨y, hxy, hdy⟩ := distIs_pred hdx
      have : start = y := distIs_zero hdy
      subst this
      right
      exact ⟨start, 0, hxy, distIs_self g start, rfl, by simp, by simp⟩

lemma calcInv_step {g : Graph} {start dest : String} {visited : List String}
    {c : String} {k : Nat} {rest : List (String × Nat)}
    (inv : CalcInv g start dest visited ((c, k) :: rest)) (hcd : c ≠ dest) :
    CalcInv g start dest
      (if c ∈ visited then visited else visited ++ [c])
      (rest ++ ((neighbors g c).filter
          (fun n => !((if c ∈ visited then visited else visited ++ [c]).contains n))).map
        (fun n => (n, k + 1))) := by
  set visited2 := if c ∈ visited then visited else visited ++ [c] with hvis2
  set enqM := ((neighbors g c).filter
      (fun n => !(visited2.contains n))).map (fun n => (n, k + 1)) with henq
  have hv2 : ∀ x, x ∈ visited2 ↔ x ∈ visited ∨ x = c := by
    intro x
    rw [hvis2]
    split_ifs with h
    · constructor
      · exact fun hx => Or.inl hx
      · rintro (hx | rfl)
        · exact hx
        · exact h
    · simp
  have hcv2 : c ∈ visited2 := (hv2 c).mpr (Or.inr rfl)
  have hsubv2 : ∀ x ∈ visited, x ∈ visited2 := fun x hx => (hv2 x).mpr (Or.inl hx)
  have hreachC : reachIn g start c k := inv.reachQ (c, k) (List.mem_cons_self _ _)
  have hspan_old : ∀ p ∈ (c, k) :: rest, p.2 ≤ k + 1 := by
    intro p hp
    exact inv.span p hp (c, k) (by simp)
  have hmono_rest : ∀ p ∈ rest, k ≤ p.2 :=
    fun p hp => (List.pairwise_cons.mp inv.mono).1 p hp
  have hpair_rest : List.Pairwise (fun p q : String × Nat => p.2 ≤ q.2) rest :=
    (List.pairwise_cons.mp inv.mono).2
  have henqM : ∀ p ∈ enqM, p.2 = k + 1 ∧ p.1 ∈ neighbors g c ∧ p.1 ∉ visited2 := by
    intro p hp
    rw [henq] at hp
    obtain ⟨n, hn, rfl⟩ := List.mem_map.mp hp
    obtain ⟨hn1, hn2⟩ := List.mem_filter.mp hn
    refine ⟨rfl, hn1, ?_⟩
    simpa using hn2
  have henqM2 : ∀ n, n ∈ neighbors g c → n ∉ visited2 → (n, k + 1) ∈ enqM := by
    intro n hn hnv
    rw [henq]
    apply List.mem_map.mpr
    refine ⟨n, List.mem_filter.mpr ⟨hn, by simpa using hnv⟩, rfl⟩
  have hhd2 : ∀ hd ∈ (rest ++ enqM).head?, k ≤ hd.2 ∧ hd.2 ≤ k + 1 := by
    intro hd hhd
    have hmem : hd ∈ rest ++ enqM := List.mem_of_mem_head? hhd
    rcases List.mem_append.mp hmem with h | h
    · exact ⟨hmono_rest hd h, hspan_old hd (List.mem_cons_of_mem _ h)⟩
    · have := (henqM hd h).1
      omega
  have hmono2 : List.Pairwise (fun p q : String × Nat => p.2 ≤ q.2) (rest ++ enqM) := by
    rw [List.pairwise_append]
    refine ⟨hpair_rest, ?_, ?_⟩
    · apply List.pairwise_of_forall_mem_list
      intro a ha b hb
      rw [(henqM a ha).1, (henqM b hb).1]
    · intro a ha b hb
      rw [(henqM b hb).1]
      exact hspan_old a (List.mem_cons_of_mem _ ha)
  have hreachQ2 : ∀ p ∈ rest ++ enqM, reachIn g start p.1 p.2 := by
    intro p hp
    rcases List.mem_append.mp hp with h | h
    · exact inv.reachQ p (List.mem_cons_of_mem _ h)
    · obtain ⟨hp2, hp1, _⟩ := henqM p h
      rw [hp2]
      exact reachIn_succ hreachC p.1 hp1
  have hspan2 : ∀ p ∈ rest ++ enqM, ∀ hd ∈ (rest ++ enqM).head?, p.2 ≤ hd.2 + 1 := by
    intro p hp hd hhd
    obtain ⟨hk, _⟩ := hhd2 hd hhd
    rcases List.mem_append.mp hp with h | h
    · have := hspan_old p (List.mem_cons_of_mem _ h)
      omega
    · have := (henqM p h).1
      omega
  have hvc2 : ∀ z ∈ visited2, ∀ x ∈ neighbors g z,
      x ∈ visited2 ∨ ∃ d, (x, d) ∈ rest ++ enqM := by
    intro z hz x hx
    rcases (hv2 z).mp hz with hzv | rfl
    · rcases inv.vclosure z hzv x hx with h | ⟨d, hd⟩
      · exact Or.inl (hsubv2 x h)
      · rcases List.mem_cons.mp hd with heq | hmem
        · have : x = c := congrArg Prod.fst heq
          exact Or.inl (this ▸ hcv2)
        · exact Or.inr ⟨d, List.mem_append_left _ hmem⟩
    · by_cases hxv : x ∈ visited2
      · exact Or.inl hxv
      · exact Or.inr ⟨k + 1, List.mem_append_right _ (henqM2 x hx hxv)⟩
  have hclosed2 : ∀ hd ∈ (rest ++ enqM).head?, ∀ x m, m < hd.2 →
      distIs g start x m → x ∈ visited2 := by
    intro hd hhd x m hm hdx
    obtain ⟨hk, hk1⟩ := hhd2 hd hhd
    rcases Nat.lt_or_ge m k with hmk | hmk
    · exact hsubv2 x (inv.closed (c, k) (by simp) x m hmk hdx)
    · have hmk2 : m = k := by omega
      have hhdk : hd.2 = k + 1 := by omega
      by_contra hxv2
      have hxv : x ∉ visited := fun h => hxv2 (hsubv2 x h)
      have hxc : x ≠ c := fun h => hxv2 (h ▸ hcv2)
      rcases inv.complete (c, k) (by simp) x m hdx hxv (by omega) with hmem | hpred
      · rcases List.mem_cons.mp hmem with heq | hmem2
        · exact hxc (congrArg Prod.fst heq)
        · -- an entry (x, k) in rest, but the head of the new queue has value k+1
          have hcons := List.cons_head?_tail hhd
          have hmemq : (x, m) ∈ rest ++ enqM := List.mem_append_left _ hmem2
          rw [← hcons] at hmemq hmono2
          rcases List.mem_cons.mp hmemq with heq2 | hmem3
          · have : hd.2 = m := (congrArg Prod.snd heq2).symm
            omega
          · have := (List.pairwise_cons.mp hmono2).1 (x, m) hmem3
            simp only at this
            omega
      · obtain ⟨y, my, _, _, hmy1, _, hymem⟩ := hpred
        rcases List.mem_cons.mp hymem with heq | hmem2
        · have : my = k := congrArg Prod.snd heq
          omega
        · have := hmono_rest (y, my) hmem2
          simp only at this
          omega
  have hcomp1 : ∀ x m, distIs g start x m → x ∉ visited2 → m ≤ k + 1 →
      ((x, m) ∈ rest ++ enqM ∨ ∃ y my, x ∈ neighbors g y ∧ distIs g start y my ∧
        my + 1 = m ∧ y ∉ visited2 ∧ (y, my) ∈ rest ++ enqM) := by
    intro x m hdx hxv2 hmle
    have hxv : x ∉ visited := fun h => hxv2 (hsubv2 x h)
    have hxc : x ≠ c := fun h => hxv2 (h ▸ hcv2)
    rcases inv.complete (c, k) (by simp) x m hdx hxv hmle with hmem | hpred
    · rcases List.mem_cons.mp hmem with heq | hmem2
      · exact absurd (congrArg Prod.fst heq) hxc
      · exact Or.inl (List.mem_append_left _ hmem2)
    · obtain ⟨y, my, hxy, hdy, hmy1, hynv, hymem⟩ := hpred
      rcases List.mem_cons.mp hymem with heq | hmem2
      · have hyc : y = c := congrArg Prod.fst heq
        have hmyk : my = k := congrArg Prod.snd heq
        have hxyc : x ∈ neighbors g c := hyc ▸ hxy
        have hmm : m = k + 1 := by omega
        rw [hmm]
        exact Or.inl (List.mem_append_right _ (henqM2 x hxyc hxv2))
      · by_cases hyc : y = c
        · subst hyc
          have hk1 : k ≤ my := hmono_rest (y, my) hmem2
          have hk2 : my ≤ k + 1 := hspan_old (y, my) (List.mem_cons_of_mem _ hmem2)
          rcases Nat.eq_or_lt_of_le hk1 with heqk | hltk
          · -- my = k : the same enqueue argument applies
            have : (x, k + 1) ∈ enqM := henqM2 x hxy hxv2
            have hmeq : m = k + 1 := by omega
            rw [hmeq]
            exact Or.inl (List.mem_append_right _ this)
          · -- my = k + 1 so m = k + 2 > k + 1, contradiction
            omega
        · refine Or.inr ⟨y, my, hxy, hdy, hmy1, ?_, List.mem_append_left _ hmem2⟩
          intro hy2
          rcases (hv2 y).mp hy2 with h | h
          · exact hynv h
          · exact hyc h
  have hcomp2 : ∀ hd ∈ (rest ++ enqM).head?, ∀ x m, distIs g start x m → x ∉ visited2 →
      m ≤ hd.2 + 1 →
      ((x, m) ∈ rest ++ enqM ∨ ∃ y my, x ∈ neighbors g y ∧ distIs g start y my ∧
        my + 1 = m ∧ y ∉ visited2 ∧ (y, my) ∈ rest ++ enqM) := by
    intro hd hhd x m hdx hxv2 hmle
    obtain ⟨hk, hk1⟩ := hhd2 hd hhd
    rcases le_or_lt m (k + 1) with hm1 | hm1
    · exact hcomp1 x m hdx hxv2 hm1
    · have hmeq : m = k + 2 ∧ hd.2 = k + 1 := by omega
      obtain ⟨rfl, hhdk⟩ := hmeq
      obtain ⟨z, hxz, hdz⟩ := distIs_pred hdx
      by_cases hzv : z ∈ visited2
      · rcases hvc2 z hzv x hxz with h | ⟨d, hdm⟩
        · exact absurd h hxv2
        · have hd1 : k + 2 ≤ d := distIs_le_of_reachIn hdx (hreachQ2 (x, d) hdm)
          have hd2d : d ≤ k + 2 := by
            have := hspan2 (x, d) hdm hd hhd
            omega
          have : d = k + 2 := by omega
          subst this
          exact Or.inl hdm
      · rcases hcomp1 z (k + 1) hdz hzv (le_refl _) with hmem | hpred
        · exact Or.inr ⟨z, k + 1, hxz, hdz, rfl, hzv, hmem⟩
        · exfalso
          obtain ⟨w, mw, _, _, hmw1, _, hwmem⟩ := hpred
          have hmw : mw = k := by omega
          subst hmw
          -- an entry at value k, but the head of the new queue has value k+1
          have hcons := List.cons_head?_tail hhd
          rw [← hcons] at hwmem
          rcases List.mem_cons.mp hwmem with heq | hmem2
          · have : mw = hd.2 := congrArg Prod.snd heq
            omega
          · rw [← hcons] at hmono2
            have := (List.pairwise_cons.mp hmono2).1 (w, mw) hmem2
            simp only at this
            omega
  refine ⟨hmono2, hspan2, hreachQ2, ?_, hclosed2, hcomp2, hvc2, ?_, ?_, ?_⟩
  · -- reachV
    intro x hx
    rcases (hv2 x).mp hx with h | rfl
    · exact inv.reachV x h
    · obtain ⟨l, hl, _⟩ := hreachC
      exact ⟨l, hl⟩
  · -- toNV
    intro h
    rcases (hv2 dest).mp h with h2 | h2
    · exact inv.toNV h2
    · exact hcd h2.symm
  · -- startV
    rcases inv.startV with h | ⟨d, hd⟩
    · exact Or.inl (hsubv2 start h)
    · rcases List.mem_cons.mp hd with heq | hmem
      · have : start = c := congrArg Prod.fst heq
        exact Or.inl (this ▸ hcv2)
      · exact Or.inr ⟨d, List.mem_append_left _ hmem⟩
  · -- vnodup
    rw [hvis2]
    split_ifs with h
    · exact inv.vnodup
    · rw [List.nodup_append]
      exact ⟨inv.vnodup, List.nodup_singleton c, by
        intro a ha hb
        simp only [List.mem_singleton] at hb
        subst hb
        exact h ha⟩

/-- Index of the first queue entry whose node is unvisited (queue length
when every entry is visited): the inner termination measure. -/
def firstUnvis (visited : List String) : List (String × Nat) → Nat
  | [] => 0
  | p :: rest => if p.1 ∈ visited then firstUnvis visited rest + 1 else 0

/-- Number of graph locations not yet visited: the outer termination
measure. -/
def measU (g : Graph) (start : String) (visited : List String) : Nat :=
  (((start :: nodesOf g).dedup).filter (fun x => !(visited.contains x))).length

lemma firstUnvis_all_visited {v : List String} :
    ∀ {l : List (String × Nat)}, (∀ p ∈ l, p.1 ∈ v) → firstUnvis v l = l.length := by
  intro l
  induction l with
  | nil => intro _; rfl
  | cons p rest ih =>
    intro h
    rw [firstUnvis, if_pos (h p (List.mem_cons_self _ _)),
      ih (fun q hq => h q (List.mem_cons_of_mem _ hq))]
    rfl

lemma firstUnvis_all_unvisited {v : List String} :
    ∀ {l : List (String × Nat)}, (∀ p ∈ l, p.1 ∉ v) → firstUnvis v l = 0 := by
  intro l
  cases l with
  | nil => intro _; rfl
  | cons p rest =>
    intro h
    rw [firstUnvis, if_neg (h p (List.mem_cons_self _ _))]

lemma firstUnvis_append_of_exists {v : List String} :
    ∀ {l1 : List (String × Nat)} (l2 : List (String × Nat)),
      (∃ p ∈ l1, p.1 ∉ v) → firstUnvis v (l1 ++ l2) = firstUnvis v l1 := by
  intro l1
  induction l1 with
  | nil => intro l2 h; simp at h
  | cons p rest ih =>
    intro l2 h
    by_cases hp : p.1 ∈ v
    · rw [List.cons_append, firstUnvis, if_pos hp, firstUnvis, if_pos hp]
      obtain ⟨q, hq, hqv⟩ := h
      rcases List.mem_cons.mp hq with rfl | hq2
      · exact absurd hp hqv
      · rw [ih l2 ⟨q, hq2, hqv⟩]
    · rw [List.cons_append, firstUnvis, if_neg hp, firstUnvis, if_neg hp]

lemma firstUnvis_append_of_all {v : List String} :
    ∀ {l1 : List (String × Nat)} (l2 : List (String × Nat)),
      (∀ p ∈ l1, p.1 ∈ v) → firstUnvis v (l1 ++ l2) = l1.length + firstUnvis v l2 := by
  intro l1
  induction l1 with
  | nil => intro l2 _; simp
  | cons p rest ih =>
    intro l2 h
    rw [List.cons_append, firstUnvis, if_pos (h p (List.mem_cons_self _ _)),
      ih l2 (fun q hq => h q (List.mem_cons_of_mem _ hq))]
    simp
    omega

lemma filter_length_lt {α : Type} (p1 p2 : α → Bool) (himp : ∀ x, p2 x = true → p1 x = true) :
    ∀ (l : List α) (c : α), c ∈ l → p1 c = true → p2 c = false →
      (l.filter p2).length < (l.filter p1).length := by
  intro l
  induction l with
  | nil => intro c hc _ _; simp at hc
  | cons a l ih =>
    intro c hc h1 h2
    have hle : (l.filter p2).length ≤ (l.filter p1).length :=
      (List.monotone_filter_right l (fun x hx => himp x hx)).length_le
    rcases List.mem_cons.mp hc with rfl | hcl
    · rw [List.filter_cons, List.filter_cons, h1, h2]
      simpa using Nat.lt_succ_of_le hle
    · have hstrict := ih c hcl h1 h2
      cases hp2 : p2 a
      · cases hp1 : p1 a
        · simp only [List.filter_cons, hp2, hp1]
          simpa using hstrict
        · simp only [List.filter_cons, hp2, hp1]
          simp
          omega
      · have hp1 := himp a hp2
        simp only [List.filter_cons, hp2, hp1]
        simp
        omega

lemma measU_lt {g : Graph} {start c : String} {visited : List String}
    (hcu : c = start ∨ c ∈ nodesOf g) (hcv : c ∉ visited) :
    measU g start (visited ++ [c]) < measU g start visited := by
  apply filter_length_lt
  · intro x hx
    have hx2 : x ∉ visited ++ [c] := by simpa using hx
    have : x ∉ visited := fun h => hx2 (List.mem_append_left _ h)
    simpa using this
  · apply List.mem_dedup.mpr
    rcases hcu with rfl | h
    · exact List.mem_cons_self _ _
    · exact List.mem_cons_of_mem _ h
  · simpa using hcv
  · simp

lemma calcGo_loop {g : Graph} {start dest : String} :
    ∀ (n1 : Nat) (visited : List String) (queue : List (String × Nat)),
      measU g start visited = n1 →
      CalcInv g start dest visited queue →
      ∃ N, ∀ fuel, N ≤ fuel →
        (∀ m, distIs g start dest m →
          calcGo g dest fuel visited queue = some (m : WithTop Nat)) ∧
        (¬ reach g start dest → calcGo g dest fuel visited queue = some ⊤) := by
  intro n1
  induction n1 using Nat.strong_induction_on with
  | _ n1 ih1 =>
    suffices inner : ∀ (n2 : Nat) (visited : List String) (queue : List (String × Nat)),
        measU g start visited = n1 → firstUnvis visited queue = n2 →
        CalcInv g start dest visited queue →
        ∃ N, ∀ fuel, N ≤ fuel →
          (∀ m, distIs g start dest m →
            calcGo g dest fuel visited queue = some (m : WithTop Nat)) ∧
          (¬ reach g start dest → calcGo g dest fuel visited queue = some ⊤) by
      intro visited queue hn1 inv
      exact inner (firstUnvis visited queue) visited queue hn1 rfl inv
    intro n2
    induction n2 using Nat.strong_induction_on with
    | _ n2 ih2 =>
      intro visited queue hn1 hn2 inv
      cases queue with
      | nil =>
        refine ⟨1, ?_⟩
        intro fuel hf
        obtain ⟨f, rfl⟩ := Nat.exists_eq_succ_of_ne_zero (Nat.pos_iff_ne_zero.mp hf)
        constructor
        · intro m hdm
          exact absurd (all_visited_of_empty inv m dest hdm) inv.toNV
        · intro _
          rfl
      | cons p rest =>
        obtain ⟨c, k⟩ := p
        by_cases hcd : c = dest
        · subst hcd
          refine ⟨1, ?_⟩
          intro fuel hf
          obtain ⟨f, rfl⟩ := Nat.exists_eq_succ_of_ne_zero (Nat.pos_iff_ne_zero.mp hf)
          constructor
          · intro m hdm
            have hle : m ≤ k := distIs_le_of_reachIn hdm
              (inv.reachQ (c, k) (List.mem_cons_self _ _))
            have hge : ¬ m < k := fun hlt =>
              inv.toNV (inv.closed (c, k) (by simp) c m hlt hdm)
            have : m = k := by omega
            subst this
            simp [calcGo]
          · intro hnr
            exfalso
            obtain ⟨l, hl, _⟩ := inv.reachQ (c, k) (List.mem_cons_self _ _)
            exact hnr ⟨l, hl⟩
        · have inv2 := calcInv_step inv hcd
          by_cases hcv : c ∈ visited
          · -- already-visited head: the first-unvisited index decreases
            rw [if_pos hcv] at inv2
            have hmeas : measU g start visited = n1 := hn1
            have hlt : firstUnvis visited
                (rest ++ ((neighbors g c).filter
                  (fun n => !(visited.contains n))).map (fun n => (n, k + 1))) < n2 := by
              rw [← hn2]
              rw [firstUnvis, if_pos hcv]
              by_cases hall : ∀ p ∈ rest, p.1 ∈ visited
              · rw [firstUnvis_append_of_all _ hall, firstUnvis_all_visited hall]
                have : firstUnvis visited (((neighbors g c).filter
                    (fun n => !(visited.contains n))).map (fun n => (n, k + 1))) = 0 := by
                  apply firstUnvis_all_unvisited
                  intro q hq
                  obtain ⟨n, hn, rfl⟩ := List.mem_map.mp hq
                  have := (List.mem_filter.mp hn).2
                  simpa using this
                omega
              · push_neg at hall
                rw [firstUnvis_append_of_exists _ hall]
                omega
            obtain ⟨N, hN⟩ := ih2 _ hlt visited _ hn1 rfl inv2
            refine ⟨N + 1, ?_⟩
            intro fuel hf
            obtain ⟨f, rfl⟩ := Nat.exists_eq_succ_of_ne_zero
              (Nat.pos_iff_ne_zero.mp (Nat.lt_of_lt_of_le (Nat.succ_pos N) hf))
            have hf2 : N ≤ f := by omega
            obtain ⟨h1, h2⟩ := hN f hf2
            constructor
            · intro m hdm
              have := h1 m hdm
              simpa [calcGo, hcd, hcv] using this
            · intro hnr
              have := h2 hnr
              simpa [calcGo, hcd, hcv] using this
          · -- newly visited head: the unvisited count decreases
            rw [if_neg hcv] at inv2
            have hcu : c = start ∨ c ∈ nodesOf g :=
              reachIn_universe (inv.reachQ (c, k) (List.mem_cons_self _ _))
            have hlt : measU g start (visited ++ [c]) < n1 := by
              rw [← hn1]
              exact measU_lt hcu hcv
            obtain ⟨N, hN⟩ := ih1 _ hlt (visited ++ [c]) _ rfl inv2
            refine ⟨N + 1, ?_⟩
            intro fuel hf
            obtain ⟨f, rfl⟩ := Nat.exists_eq_succ_of_ne_zero
              (Nat.pos_iff_ne_zero.mp (Nat.lt_of_lt_of_le (Nat.succ_pos N) hf))
            have hf2 : N ≤ f := by omega
            obtain ⟨h1, h2⟩ := hN f hf2
            constructor
            · intro m hdm
              have := h1 m hdm
              simpa [calcGo, hcd, hcv] using this
            · intro hnr
              have := h2 hnr
              simpa [calcGo, hcd, hcv] using this

lemma calculateDistance_correct {g : Graph} {start dest : String} (hne : start ≠ dest) :
    (∀ m, distIs g start dest m →
      ∃ N, ∀ fuel, N ≤ fuel →
        calcGo g dest fuel [] [(start, 0)] = some (m : WithTop Nat)) ∧
    (¬ reach g start dest →
      ∃ N, ∀ fuel, N ≤ fuel → calcGo g dest fuel [] [(start, 0)] = some ⊤) := by
  obtain ⟨N, hN⟩ := @calcGo_loop g start dest
    (measU g start []) [] [(start, 0)] rfl (calcInv_init g start dest hne)
  constructor
  · intro m hdm
    exact ⟨N, fun fuel hf => (hN fuel hf).1 m hdm⟩
  · intro hnr
    exact ⟨N, fun fuel hf => (hN fuel hf).2 hnr⟩


theorem claim_C4_amended_witness :
    ((lookupG (buildGraph ["A-B"]) "A").isSome) ∧
    (∀ fuel, 1 ≤ fuel →
      calculateDistance (buildGraph ["A-B"]) "A" "A" fuel = some (0 : WithTop Nat)) :=
  ⟨by decide, (claim_C4_amended ["A-B"] "A" (by decide)).1⟩

/-! ### Claims C1 and C6: correctness of the two searches -/

/-- C1: on a graph built by `buildGraph`, for distinct locations with the
target reachable from the start, `findRoute` returns a route that is a
valid path (consecutive locations adjacent, origin excluded, ending at the
target) of minimum hop count, and `calculateDistance` — with enough fuel
for its unbounded JS loop — returns exactly that minimum hop count. -/
theorem claim_C1 (edges : List String) (start dest : String)
    (hne : start ≠ dest) (hr : reach (buildGraph edges) start dest) :
    ∃ r, findRoute (buildGraph edges) start dest = some r ∧
      isPath (buildGraph edges) start r dest ∧
      (∀ l, isPath (buildGraph edges) start l dest → r.length ≤ l.length) ∧
      (∃ N, ∀ fuel, N ≤ fuel →
        calculateDistance (buildGraph edges) start dest fuel =
          some (r.length : WithTop Nat)) := by
  obtain ⟨r, hfind, hpath, hmin⟩ := findRouteGo_some_of_reach hr
    (findRouteBound (buildGraph edges) start) [⟨start, []⟩] 0
    (routeInv_init (buildGraph edges) start dest hne)
    (by unfold findRouteBound; omega)
  refine ⟨r, hfind, hpath, hmin, ?_⟩
  have hdist : distIs (buildGraph edges) start dest r.length := ⟨⟨r, hpath, rfl⟩, hmin⟩
  exact (calculateDistance_correct hne).1 r.length hdist

theorem claim_C1_witness :
    ("A" ≠ "C" ∧ reach (buildGraph ["A-B", "B-C"]) "A" "C") ∧
    ∃ r, findRoute (buildGraph ["A-B", "B-C"]) "A" "C" = some r ∧
      isPath (buildGraph ["A-B", "B-C"]) "A" r "C" ∧
      (∀ l, isPath (buildGraph ["A-B", "B-C"]) "A" l "C" → r.length ≤ l.length) ∧
      (∃ N, ∀ fuel, N ≤ fuel →
        calculateDistance (buildGraph ["A-B", "B-C"]) "A" "C" fuel =
          some (r.length : WithTop Nat)) :=
  ⟨⟨by decide, ⟨["B", "C"], by decide⟩⟩,
    claim_C1 ["A-B", "B-C"] "A" "C" (by decide) ⟨["B", "C"], by decide⟩⟩

/-- A set of locations containing the start, closed under adjacency and
missing the target witnesses unreachability. -/
lemma not_reach_of_closed_list {g : Graph} {start dest : String} (S : List String)
    (hstart : start ∈ S) (hdest : dest ∉ S)
    (hclosed : ∀ x ∈ S, ∀ y ∈ neighbors g x, y ∈ S) :
    ¬ reach g start dest := by
  rintro ⟨l, hl⟩
  suffices H : ∀ (l : List String) (a : String), a ∈ S → isPath g a l dest → dest ∈ S by
    exact hdest (H l start hstart hl)
  intro l
  induction l with
  | nil =>
    intro a ha hp
    have : a = dest := hp
    rwa [this] at ha
  | cons x l ih =>
    intro a ha hp
    exact ih x (hclosed a ha x hp.1) hp.2

/-- C6: on a finite graph built by `buildGraph`, when the target is not
reachable from the start, `findRoute`'s loop terminates with the work list
exhausted and returns `undefined` (here `none`) for every sufficient fuel,
and `calculateDistance` terminates with the queue emptied and returns
`Infinity` (here `some ⊤`): neither loops forever on a disconnected graph. -/
theorem claim_C6 (edges : List String) (start dest : String)
    (hstart : (lookupG (buildGraph edges) start).isSome)
    (hdest : (lookupG (buildGraph edges) dest).isSome)
    (hnr : ¬ reach (buildGraph edges) start dest) :
    (∀ fuel, findRouteBound (buildGraph edges) start ≤ fuel →
      findRouteGo (buildGraph edges) dest fuel [⟨start, []⟩] 0 = none) ∧
    findRoute (buildGraph edges) start dest = none ∧
    (∃ N, ∀ fuel, N ≤ fuel →
      calculateDistance (buildGraph edges) start dest fuel = some ⊤) := by
  have hne : start ≠ dest := by
    intro h
    exact hnr (h ▸ reach_refl (buildGraph edges) start)
  have hinv := routeInv_init (buildGraph edges) start dest hne
  refine ⟨?_, ?_, (calculateDistance_correct hne).2 hnr⟩
  · intro fuel hfuel
    exact findRouteGo_none_of_not_reach hnr fuel [⟨start, []⟩] 0 hinv
      (by unfold findRouteBound at hfuel; omega)
  · exact findRouteGo_none_of_not_reach hnr _ [⟨start, []⟩] 0 hinv
      (by unfold findRouteBound; omega)

theorem claim_C6_witness :
    ((lookupG (buildGraph ["A-B", "C-D"]) "A").isSome ∧
      (lookupG (buildGraph ["A-B", "C-D"]) "C").isSome ∧
      ¬ reach (buildGraph ["A-B", "C-D"]) "A" "C") ∧
    findRoute (buildGraph ["A-B", "C-D"]) "A" "C" = none ∧
    (∃ N, ∀ fuel, N ≤ fuel →
      calculateDistance (buildGraph ["A-B", "C-D"]) "A" "C" fuel = some ⊤) := by
  have hnr : ¬ reach (buildGraph ["A-B", "C-D"]) "A" "C" :=
    not_reach_of_closed_list ["A", "B"] (by decide) (by decide) (by decide)
  have h := claim_C6 ["A-B", "C-D"] "A" "C" (by decide) (by decide) hnr
  exact ⟨⟨by decide, by decide, hnr⟩, h.2.1, h.2.2⟩

end DeliveryRobot
